import Mathlib

/-!
Verification development for csv_analyze.py.

The program is shallowly embedded: Python sets are modeled as duplicate-free
lists of their members, CSV records as association lists from column name to
value, exceptions as an explicit Except layer, and the process's standard
output / standard error as lists of printed lines.
-/

namespace CsvAnalyze

/-! ## Python string comparison

Python compares strings lexicographically by Unicode code point.  Lean's own
String order is definitionally opaque to the kernel, so we embed the
comparison as a structurally recursive Boolean function on code-point lists.
-/

/-- Lexicographic less-or-equal on code-point lists. -/
def charsLeB : List Char → List Char → Bool
  | [], _ => true
  | _ :: _, [] => false
  | a :: as, b :: bs =>
    if a.toNat < b.toNat then true
    else if b.toNat < a.toNat then false
    else charsLeB as bs

/-- Python's string less-or-equal: lexicographic by code point. -/
def strLe (a b : String) : Prop := charsLeB a.toList b.toList = true

instance : DecidableRel strLe := fun a b => by unfold strLe; infer_instance

theorem charsLeB_refl : ∀ a : List Char, charsLeB a a = true
  | [] => rfl
  | c :: cs => by simp [charsLeB, charsLeB_refl cs]

theorem charsLeB_total : ∀ a b : List Char, charsLeB a b = true ∨ charsLeB b a = true
  | [], _ => Or.inl rfl
  | _ :: _, [] => Or.inr rfl
  | a :: as, b :: bs => by
    rcases Nat.lt_trichotomy a.toNat b.toNat with h | h | h
    · left; simp [charsLeB, h]
    · have h1 : ¬ a.toNat < b.toNat := by omega
      have h2 : ¬ b.toNat < a.toNat := by omega
      rcases charsLeB_total as bs with htl | htl
      · left; simp only [charsLeB, if_neg h1, if_neg h2]; exact htl
      · right; simp only [charsLeB, if_neg h1, if_neg h2]; exact htl
    · right; simp [charsLeB, h]

theorem charsLeB_antisymm : ∀ a b : List Char,
    charsLeB a b = true → charsLeB b a = true → a = b
  | [], [], _, _ => rfl
  | [], _ :: _, _, h2 => by simp [charsLeB] at h2
  | _ :: _, [], h1, _ => by simp [charsLeB] at h1
  | a :: as, b :: bs, h1, h2 => by
    simp only [charsLeB] at h1 h2
    rcases Nat.lt_trichotomy a.toNat b.toNat with h | h | h
    · rw [if_neg (by omega), if_pos (by omega)] at h2; simp at h2
    · rw [if_neg (by omega), if_neg (by omega)] at h1
      rw [if_neg (by omega), if_neg (by omega)] at h2
      have hn : a.toNat = b.toNat := h
      have hc : a = b := Char.eq_of_val_eq (UInt32.ext hn)
      rw [hc, charsLeB_antisymm as bs h1 h2]
    · rw [if_neg (by omega), if_pos (by omega)] at h1; simp at h1

theorem charsLeB_trans : ∀ a b c : List Char,
    charsLeB a b = true → charsLeB b c = true → charsLeB a c = true
  | [], _, _, _, _ => rfl
  | _ :: _, [], _, h1, _ => by simp [charsLeB] at h1
  | _ :: _, _ :: _, [], _, h2 => by simp [charsLeB] at h2
  | a :: as, b :: bs, c :: cs, h1, h2 => by
    simp only [charsLeB] at h1 h2 ⊢
    rcases Nat.lt_trichotomy a.toNat b.toNat with hab | hab | hab
    · rcases Nat.lt_trichotomy b.toNat c.toNat with hbc | hbc | hbc
      · rw [if_pos (by omega : a.toNat < c.toNat)]
      · rw [if_pos (by omega : a.toNat < c.toNat)]
      · rw [if_neg (by omega), if_pos (by omega)] at h2; simp at h2
    · rcases Nat.lt_trichotomy b.toNat c.toNat with hbc | hbc | hbc
      · rw [if_pos (by omega : a.toNat < c.toNat)]
      · rw [if_neg (by omega), if_neg (by omega)] at h1
        rw [if_neg (by omega), if_neg (by omega)] at h2
        rw [if_neg (by omega : ¬ a.toNat < c.toNat),
          if_neg (by omega : ¬ c.toNat < a.toNat)]
        exact charsLeB_trans as bs cs h1 h2
      · rw [if_neg (by omega), if_pos (by omega)] at h2; simp at h2
    · rw [if_neg (by omega), if_pos (by omega)] at h1; simp at h1

instance : IsTotal String strLe := ⟨fun a b => charsLeB_total a.toList b.toList⟩

instance : IsTrans String strLe := ⟨fun a b c => charsLeB_trans a.toList b.toList c.toList⟩

instance : IsRefl String strLe := ⟨fun a => charsLeB_refl a.toList⟩

instance : IsAntisymm String strLe :=
  ⟨fun a b h1 h2 => by
    have h := charsLeB_antisymm a.toList b.toList h1 h2
    cases a; cases b; exact congrArg String.mk (by simpa [String.toList] using h)⟩

/-- Python's sorted() on strings: stable ascending sort, here realized by
insertion sort over the code-point order. -/
def ssort (l : List String) : List String := List.insertionSort strLe l

/-! ## Python int() and float() parsing

int(str) accepts optional surrounding whitespace, an optional sign, and a
nonempty run of decimal digits with single underscores allowed between digits.
float(str) accepts the standard decimal / scientific literal grammar under the
same whitespace, sign and underscore rules.  (CPython additionally accepts
inf/infinity/nan spellings and non-ASCII decimal digits; neither occurs in any
input considered here, and no claim depends on them.)  Float values are
modeled as exact rationals.
-/

/-- ASCII whitespace stripped by Python's int()/float() conversions. -/
def isPySpace (c : Char) : Bool :=
  c = ' ' || c = '\t' || c = '\n' || c = '\r' || c.toNat = 11 || c.toNat = 12

/-- Strip leading and trailing whitespace. -/
def pyStrip (cs : List Char) : List Char :=
  ((cs.dropWhile isPySpace).reverse.dropWhile isPySpace).reverse

/-- After an initial digit: digits with single underscores between digits. -/
def digitsURest : List Char → Bool
  | [] => true
  | '_' :: c :: cs => c.isDigit && digitsURest cs
  | ['_'] => false
  | c :: cs => c.isDigit && digitsURest cs

/-- A nonempty digit run, with single underscores allowed between digits. -/
def digitsUOk : List Char → Bool
  | [] => false
  | c :: cs => c.isDigit && digitsURest cs

/-- Numeric value of a digit run, ignoring underscores. -/
def digitsVal (cs : List Char) : Nat :=
  cs.foldl (fun a c => if c = '_' then a else a * 10 + (c.toNat - 48)) 0

/-- Sign plus digit run (no whitespace): shared core of int() and the
exponent part of float(). -/
def pyIntCore : List Char → Option Int
  | '+' :: ds => if digitsUOk ds then some (digitsVal ds : Int) else none
  | '-' :: ds => if digitsUOk ds then some (-(digitsVal ds : Int)) else none
  | ds => if digitsUOk ds then some (digitsVal ds : Int) else none

/-- Python int(v) for a string v: some value on success, none when a
ValueError would be raised. -/
def pyInt (s : String) : Option Int := pyIntCore (pyStrip s.toList)

/-- Value of a fractional digit run fp, i.e. 0.fp. -/
def fracVal (fp : List Char) : ℚ :=
  (digitsVal fp : ℚ) / (10 : ℚ) ^ (fp.filter Char.isDigit).length

/-- Mantissa of a float literal: digits, with at most one point. -/
def mantVal (cs : List Char) : Option ℚ :=
  match cs.span (fun c => !(c == '.')) with
  | (ip, []) => if digitsUOk ip then some (digitsVal ip : ℚ) else none
  | (ip, _ :: fp) =>
    if ip.isEmpty then
      if digitsUOk fp then some (fracVal fp) else none
    else if digitsUOk ip then
      if fp.isEmpty then some (digitsVal ip : ℚ)
      else if digitsUOk fp then some ((digitsVal ip : ℚ) + fracVal fp)
      else none
    else none

/-- Ten to an integer power, as a rational. -/
def qpow10 (e : Int) : ℚ :=
  if 0 ≤ e then (10 : ℚ) ^ e.toNat else 1 / (10 : ℚ) ^ (-e).toNat

/-- Float literal after the sign: mantissa with optional exponent part. -/
def pyFloatCore (cs : List Char) : Option ℚ :=
  match cs.span (fun c => !(c == 'e' || c == 'E')) with
  | (mant, []) => mantVal mant
  | (mant, _ :: ecs) =>
    match mantVal mant, pyIntCore ecs with
    | some m, some e => some (m * qpow10 e)
    | _, _ => none

/-- Python float(v) for a string v: some rational on success, none when a
ValueError would be raised. -/
def pyFloat (s : String) : Option ℚ :=
  match pyStrip s.toList with
  | '+' :: cs => pyFloatCore cs
  | '-' :: cs => (pyFloatCore cs).map (fun q => -q)
  | cs => pyFloatCore cs

/-! ## The set classifier: show_set (src/csv_analyze.py lines 81-115) -/

/-- The zero-information values: BORING_SET in the source. -/
def BORING_LIST : List String := ["", "0", "0.0"]

/-- Python repr of a string inside a printed list.  (CPython would escape
quotes and backslashes and may switch quote style; the values reaching this
rendering in the claims contain neither.) -/
def pyRepr (s : String) : String := "'" ++ s ++ "'"

/-- Python str() of a list of strings, as printed by format(). -/
def pyListRepr (l : List String) : String :=
  "[" ++ String.intercalate ", " (l.map pyRepr) ++ "]"

/-- Python min over a nonempty list (default d is returned only for [],
where CPython would raise ValueError; unreachable in show_set). -/
def listMinD [Min α] (d : α) : List α → α
  | [] => d
  | x :: xs => xs.foldl (fun a b => min a b) x

/-- Python max over a nonempty list. -/
def listMaxD [Max α] (d : α) : List α → α
  | [] => d
  | x :: xs => xs.foldl (fun a b => max a b) x

/-- Python min over strings, using the embedded code-point order. -/
def listMinStr (d : String) : List String → String
  | [] => d
  | x :: xs => xs.foldl (fun a b => if strLe a b then a else b) x

/-- Python max over strings, using the embedded code-point order. -/
def listMaxStr (d : String) : List String → String
  | [] => d
  | x :: xs => xs.foldl (fun a b => if strLe b a then a else b) x

/-- A Python list comprehension over an iterable applying a fallible
conversion: all values convert, or the first failure raises. -/
def mapOpt (f : α → Option β) : List α → Option (List β)
  | [] => some []
  | a :: l =>
    match f a, mapOpt f l with
    | some b, some bs => some (b :: bs)
    | _, _ => none

/-- Rendering of the float tier's numeric values.  CPython prints repr of the
IEEE double; we render the exact rational as num/den.  No claim exercises the
float tier's rendered output. -/
def ratRepr (q : ℚ) : String := toString q.num ++ "/" ++ toString q.den

/-- The ranged tier's output line, from the format string at lines 113-115:
count, type label, column name, minimum, maximum, empties suffix. -/
def mkRanged (count : Nat) (stype name mn mx sempty : String) : String :=
  toString count ++ " different " ++ stype ++ "values for " ++ name ++
    " ranging from " ++ mn ++ " to " ++ mx ++ sempty

/-- show_set(name, a_set): the single line printed for one column.  The set
is a duplicate-free list of members; iteration order never affects the line
(sorted/min/max are order independent, and the constant tier has one member).
The `erase` mirrors a_set.remove('') — note it happens before the printed
`len(a_set)` is taken. -/
def showSet (name : String) (s : List String) : String :=
  if s.all (fun v => BORING_LIST.contains v) then "boring: " ++ name
  else if s.length = 1 then "constant: " ++ name ++ "=" ++ s.headD ""
  else if s.length ≤ 5 then "limited: " ++ name ++ "=" ++ pyListRepr (ssort s)
  else
    let sempty := if s.contains "" then " excluding empties" else ""
    let t := s.erase ""
    match mapOpt pyInt t with
    | some ints =>
      mkRanged t.length "integer " name (toString (listMinD 0 ints))
        (toString (listMaxD 0 ints)) sempty
    | none =>
      match mapOpt pyFloat t with
      | some qs =>
        mkRanged t.length "float " name (ratRepr (listMinD 0 qs))
          (ratRepr (listMaxD 0 qs)) sempty
      | none =>
        mkRanged t.length "" name (listMinStr "" t) (listMaxStr "" t) sempty

example : pyInt "20" = some 20 := rfl
example : pyInt " -3 " = some (-3) := rfl
example : pyInt "0.0" = none := rfl
example : pyInt "1_0" = some 10 := rfl
example : pyInt "_1" = none := rfl
example : pyFloat "abc" = none := rfl

/-! ## Records and the CSV reader -/

/-- A value stored in a DictReader record: a parsed string field, Python None
(DictReader's restval fill for short rows), or the list of extra fields
(DictReader's restkey value for long rows). -/
inductive RVal where
  | str : String → RVal
  | pynone : RVal
  | extra : List String → RVal
deriving DecidableEq

/-- A record key: a column name, or Python None (DictReader's restkey). -/
abbrev RKey := Option String

/-- The exceptions that can escape the embedded code. -/
inductive PyExc where
  | csvError
  | keyError
  | typeError
  | keyboardInterrupt
deriving DecidableEq

/-- A record: a Python dict as an insertion-ordered association list with
unique keys. -/
abbrev Record := List (RKey × RVal)

/-- Python dict insertion: overwrite in place when the key is present,
append otherwise. -/
def dictInsert (d : Record) (k : RKey) (v : RVal) : Record :=
  if d.any (fun p => p.1 == k) then
    d.map (fun p => if p.1 == k then (k, v) else p)
  else d ++ [(k, v)]

/-- Record lookup (dict subscription / iteration value). -/
def lookupRec (d : Record) (k : RKey) : Option RVal := List.lookup k d

/-- DictReader's construction of one record from the header and a data row:
dict(zip(fieldnames, row)); extra fields go under restkey (None) as a list;
missing fields are filled with restval (None). -/
def mkRecord (header fields : List String) : Record :=
  let base := (List.zip header fields).foldl
    (fun d p => dictInsert d (some p.1) (RVal.str p.2)) []
  if header.length < fields.length then
    dictInsert base none (RVal.extra (fields.drop header.length))
  else
    (header.drop fields.length).foldl
      (fun d k => dictInsert d (some k) RVal.pynone) base

/-- Split a character list at every occurrence of the separator. -/
def splitOnCh (sep : Char) : List Char → List (List Char)
  | [] => [[]]
  | c :: cs =>
    if c = sep then [] :: splitOnCh sep cs
    else
      match splitOnCh sep cs with
      | [] => [[c]]
      | g :: gs => (c :: g) :: gs

/-- The rows csv.reader yields for file content under delimiter d: the
content split into lines, each nonblank line split into fields.  (Quoting
and escaping conventions are not exercised by any claim and are not modeled;
a blank line yields the empty row [], which DictReader skips.) -/
def csvRows (d : Char) (content : String) : List (List String) :=
  (splitOnCh '\n' content.toList).map
    (fun ln => if ln.isEmpty then [] else (splitOnCh d ln).map List.asString)

/-- The records DictReader yields: the first row is the header, blank rows
are skipped, each remaining row becomes a dict. -/
def pyRecords (d : Char) (content : String) : List Record :=
  match csvRows d content with
  | [] => []
  | header :: rest => (rest.filter (fun r => !r.isEmpty)).map (mkRecord header)

/-! ## Dialects and sniffing -/

/-- Python's csv.list_dialects() registry, in registration order. -/
def DIALECT_NAMES : List String := ["excel", "excel-tab", "unix"]

/-- Delimiter of a named stdlib dialect; an unknown name raises csv.Error. -/
def dialectDelim : String → Except PyExc Char
  | "excel" => .ok ','
  | "excel-tab" => .ok '\t'
  | "unix" => .ok ','
  | _ => .error PyExc.csvError

/-- Modelled from the spec: csv.Sniffer().sniff is Python stdlib, not part of
this repository.  Per the spec it inspects a 1024-character sample and raises
DialectUndetectable (csv.Error) when no consistent delimiter pattern is found
in the sample; we model it as picking the first candidate delimiter occurring
in the sample (the Sniffer's preferred delimiter set), failing when none
occurs. -/
def sniff (sample : String) : Except PyExc Char :=
  match sample.toList.filter (fun c => [',', '\t', ';', ' ', ':'].contains c) with
  | [] => .error PyExc.csvError
  | c :: _ => .ok c

/-- The sniffing sample: csvfile.read(1024). -/
def sample1024 (content : String) : String := (content.toList.take 1024).asString

/-! ## The CLI driver: main (src/csv_analyze.py lines 116-158) -/

/-- Parsed command-line arguments.  columns = [] models argparse's None (no
-c given): both are falsy in the source's `if args.columns:` tests. -/
structure Args where
  dialect : Option String
  listDialects : Bool
  columns : List String
  files : List String

/-- The outcome of opening one input path: an IOError carrying its strerror,
or the readable content. -/
inductive FileRes where
  | err : String → FileRes
  | ok : String → FileRes

/-- Whether opening failed. -/
def FileRes.isErr : FileRes → Bool
  | .err _ => true
  | .ok _ => false

/-- The field accumulator, collections.defaultdict(set): keys lists the dict
keys in creation order; val gives each key's set of observed values as a
duplicate-free list. -/
structure AccF where
  keys : List RKey
  val : RKey → List RVal

/-- The accumulator at the start of the run. -/
def emptyAcc : AccF := ⟨[], fun _ => []⟩

/-- Python set.add. -/
def setAdd [DecidableEq α] (s : List α) (a : α) : List α :=
  if a ∈ s then s else s ++ [a]

/-- field_counter[key].add(value) for a hashable value: the defaultdict
creates the key on first access and the value joins the key's set. -/
def addObs (acc : AccF) (k : RKey) (v : RVal) : AccF :=
  ⟨if k ∈ acc.keys then acc.keys else acc.keys ++ [k],
   fun q => if q = k then setAdd (acc.val q) v else acc.val q⟩

/-- Sequential fallible iteration (a Python for loop whose body may raise). -/
def foldExc (f : σ → α → Except PyExc σ) : σ → List α → Except PyExc σ
  | s, [] => .ok s
  | s, a :: l =>
    match f s a with
    | .error e => .error e
    | .ok s2 => foldExc f s2 l

/-- Fallible conversion of each element in order, first failure raising. -/
def mapExc (f : α → Except PyExc β) : List α → Except PyExc (List β)
  | [] => .ok []
  | a :: l =>
    match f a with
    | .error e => .error e
    | .ok b =>
      match mapExc f l with
      | .error e => .error e
      | .ok bs => .ok (b :: bs)

/-- One (key, value) observation.  Adding an unhashable list value raises
TypeError; the run aborts on it, so the post-raise accumulator (whose key
CPython's defaultdict has already created) is unobservable and not tracked. -/
def observePair (acc : AccF) (p : RKey × RVal) : Except PyExc AccF :=
  match p.2 with
  | RVal.extra _ => .error PyExc.typeError
  | _ => .ok (addObs acc p.1 p.2)

/-- for key in row: field_counter[key].add(row[key])  (lines 146-147). -/
def observeRecord (acc : AccF) (r : Record) : Except PyExc AccF :=
  foldExc observePair acc r

/-- Whether a record value is a Python string. -/
def valIsStr : RVal → Bool
  | RVal.str _ => true
  | _ => false

/-- The string payload of a record value (meaningful only under valIsStr). -/
def valStr : RVal → String
  | RVal.str s => s
  | _ => ""

/-- format() of a record value, as used by the constant tier. -/
def valRepr : RVal → String
  | RVal.str s => s
  | RVal.pynone => "None"
  | RVal.extra l => pyListRepr l

/-- '\t'.join. -/
def tabJoin (l : List String) : String := String.intercalate "\t" l

/-- One projected output row: '\t'.join([row[key] for key in args.columns])
(line 144).  A requested column absent from the record raises KeyError in the
comprehension; a non-string value (None from a short row, or the restkey
list) raises TypeError in join. -/
def projRow (cols : List String) (r : Record) : Except PyExc String :=
  match mapExc (fun k =>
      match lookupRec r (some k) with
      | none => Except.error PyExc.keyError
      | some v => Except.ok v) cols with
  | .error e => .error e
  | .ok vs =>
    if vs.all valIsStr then .ok (tabJoin (vs.map valStr))
    else .error PyExc.typeError

/-- show_set applied to an accumulator set, which may contain non-string
values when rows were ragged: with only string members the pure classifier
runs; a lone non-string member still prints as a constant via format(); any
other mix raises TypeError (from sorted() in the limited tier, int()/float()
or min()/max() in the ranged tier — never caught, since the source handles
only ValueError). -/
def showSetPy (name : String) (s : List RVal) : Except PyExc String :=
  if s.all valIsStr then .ok (showSet name (s.map valStr))
  else if s.length = 1 then
    .ok ("constant: " ++ name ++ "=" ++ valRepr (s.headD RVal.pynone))
  else .error PyExc.typeError

/-- for key in sorted(field_counter): show_set(key, field_counter[key])
(lines 149-150).  Sorting a key set that holds None alongside string keys
raises TypeError; a lone None key sorts trivially and format() renders it as
None. -/
def classifyPhase (acc : AccF) : Except PyExc (List String) :=
  if acc.keys.contains none then
    if acc.keys.length ≤ 1 then
      match showSetPy "None" (acc.val none) with
      | .error e => .error e
      | .ok line => .ok [line]
    else .error PyExc.typeError
  else
    mapExc (fun n => showSetPy n (acc.val (some n)))
      (List.insertionSort strLe (acc.keys.map (fun k => k.getD "")))

/-- progname(): the basename of the script file. -/
def PROGNAME : String := "csv_analyze.py"

/-- The state of main's loop over input files: printed stdout lines, printed
stderr lines, the field accumulator, and the failure counter rtn. -/
structure RunSt where
  out : List String
  errs : List String
  acc : AccF
  rtn : Nat

/-- The loop state at the start of the run. -/
def initSt : RunSt := ⟨[], [], emptyAcc, 0⟩

/-- Dialect selection for one opened file (lines 135-138): a truthy --dialect
name is looked up by the reader, otherwise the Sniffer runs on a
1024-character sample (after which the source seeks back to offset 0, so
parsing below reads the whole content). -/
def resolveDelim (args : Args) (content : String) : Except PyExc Char :=
  if args.dialect.getD "" = "" then sniff (sample1024 content)
  else dialectDelim (args.dialect.getD "")

/-- One iteration of main's loop over input files (lines 128-150): an open
failure prints to stderr and bumps rtn; otherwise the file's records are
either projected (printed behind a header line of the requested columns) or
folded into the accumulator. -/
def processFile (args : Args) (fs : String → FileRes) (st : RunSt) (name : String) :
    Except PyExc RunSt :=
  match fs name with
  | .err msg =>
    .ok { st with
          errs := st.errs ++ [PROGNAME ++ ": " ++ name ++ ": " ++ msg],
          rtn := st.rtn + 1 }
  | .ok content =>
    match resolveDelim args content with
    | .error e => .error e
    | .ok d =>
      let recs := pyRecords d content
      if args.columns.isEmpty then
        match foldExc observeRecord st.acc recs with
        | .error e => .error e
        | .ok acc2 => .ok { st with acc := acc2 }
      else
        match mapExc (projRow args.columns) recs with
        | .error e => .error e
        | .ok lines =>
          .ok { st with out := st.out ++ (tabJoin args.columns :: lines) }

/-- The effective file list: stdin when no files are given (lines 118-119). -/
def filesOf (args : Args) : List String :=
  if args.files.isEmpty then ["-"] else args.files

/-- main() (lines 116-152): the stdout lines, stderr lines and return value,
or the exception escaping main.  Output printed before an exception aborts
the run is not tracked. -/
def mainRun (args : Args) (fs : String → FileRes) :
    Except PyExc (List String × List String × Nat) :=
  if args.listDialects then .ok (DIALECT_NAMES, [], 1)
  else
    match foldExc (processFile args fs) initSt (filesOf args) with
    | .error e => .error e
    | .ok st =>
      match classifyPhase st.acc with
      | .error e => .error e
      | .ok summary => .ok (st.out ++ summary, st.errs, st.rtn)

/-- How the process ends: a normal exit status, or an unhandled traceback. -/
inductive ExitOutcome where
  | code : Nat → ExitOutcome
  | unhandled : PyExc → ExitOutcome
deriving DecidableEq

/-- The module guard (lines 154-158): sys.exit(main()) with only
KeyboardInterrupt handled, mapped to exit status 2; any other exception
escapes as an unhandled traceback. -/
def topLevel (r : Except PyExc (List String × List String × Nat)) : ExitOutcome :=
  match r with
  | .ok (_, _, n) => .code n
  | .error PyExc.keyboardInterrupt => .code 2
  | .error e => .unhandled e

/-! ## Pure aggregation (well-formed observations) and its invariants -/

/-- The aggregation of a stream of (column, value) observations from a given
accumulator: the pure core of the loop at lines 146-147, for hashable
values. -/
def observeFrom (a : AccF) (ps : List (RKey × RVal)) : AccF :=
  ps.foldl (fun acc p => addObs acc p.1 p.2) a

/-- The rows-level aggregation (the loop at lines 142-147 in analysis mode):
each record's pairs feed the accumulator in iteration order. -/
def observeRows (rows : List Record) : AccF :=
  rows.foldl (fun acc r => observeFrom acc r) emptyAcc

/-- The set of values accumulated for one column after aggregating rows. -/
def colVals (rows : List Record) (k : RKey) : List RVal :=
  (observeRows rows).val k

example : mkRecord ["a", "b"] ["1"] = [(some "a", RVal.str "1"), (some "b", RVal.pynone)] := rfl
example : pyRecords ',' "a,b\n1,x\n" = [[(some "a", RVal.str "1"), (some "b", RVal.str "x")]] := rfl
example : mainRun ⟨none, false, [], ["f"]⟩ (fun _ => FileRes.ok "a,b\n1,x\n2,x\n3,x\n") =
    .ok (["limited: a=['1', '2', '3']", "constant: b=x"], [], 0) := rfl
example : mainRun ⟨none, false, ["a"], ["f"]⟩ (fun _ => FileRes.ok "a,b\n1,x\n2,x\n") =
    .ok (["a", "1", "2"], [], 0) := rfl
example : showSet "b" ["x"] = "constant: b=x" := rfl
example : showSet "a" ["1", "2", "3"] = "limited: a=['1', '2', '3']" := rfl
example : showSet "z" ["0", ""] = "boring: z" := rfl
example : showSet "col" ["", "0", "5", "10", "15", "20"] =
    "5 different integer values for col ranging from 0 to 20 excluding empties" := rfl

/-! ## Helper lemmas -/

theorem contains_iff_mem_str (l : List String) (v : String) :
    l.contains v = true ↔ v ∈ l := by
  simp [List.contains_iff_exists_mem_beq, beq_iff_eq]

theorem mem_setAdd [DecidableEq α] (s : List α) (a v : α) :
    v ∈ setAdd s a ↔ v ∈ s ∨ v = a := by
  unfold setAdd
  split
  · rename_i h
    constructor
    · exact Or.inl
    · rintro (hv | rfl)
      · exact hv
      · exact h
  · simp

theorem setAdd_ne_nil [DecidableEq α] (s : List α) (a : α) : setAdd s a ≠ [] := by
  unfold setAdd
  split
  · rename_i h; intro hnil; rw [hnil] at h; cases h
  · simp

theorem nodup_setAdd [DecidableEq α] (s : List α) (a : α) (h : s.Nodup) :
    (setAdd s a).Nodup := by
  unfold setAdd
  split
  · exact h
  · rename_i hna
    simpa [List.nodup_append, h] using hna

theorem addObs_val (acc : AccF) (k : RKey) (v : RVal) (q : RKey) :
    (addObs acc k v).val q = if q = k then setAdd (acc.val q) v else acc.val q := rfl

theorem addObs_keys (acc : AccF) (k : RKey) (v : RVal) :
    (addObs acc k v).keys = if k ∈ acc.keys then acc.keys else acc.keys ++ [k] := rfl

theorem mem_keys_addObs (acc : AccF) (k : RKey) (v : RVal) (q : RKey) :
    q ∈ (addObs acc k v).keys ↔ q ∈ acc.keys ∨ q = k := by
  rw [addObs_keys]
  split
  · rename_i h
    constructor
    · exact Or.inl
    · rintro (hq | rfl)
      · exact hq
      · exact h
  · simp

theorem observeFrom_nil (a : AccF) : observeFrom a [] = a := rfl

theorem observeFrom_cons (a : AccF) (p : RKey × RVal) (ps : List (RKey × RVal)) :
    observeFrom a (p :: ps) = observeFrom (addObs a p.1 p.2) ps := rfl

theorem observeFrom_append (a : AccF) (l₁ l₂ : List (RKey × RVal)) :
    observeFrom a (l₁ ++ l₂) = observeFrom (observeFrom a l₁) l₂ := by
  unfold observeFrom
  rw [List.foldl_append]

theorem mem_val_observeFrom (ps : List (RKey × RVal)) :
    ∀ (a : AccF) (k : RKey) (v : RVal),
      v ∈ (observeFrom a ps).val k ↔ v ∈ a.val k ∨ (k, v) ∈ ps := by
  induction ps with
  | nil => simp [observeFrom_nil]
  | cons p ps ih =>
    intro a k v
    rw [observeFrom_cons, ih]
    rw [addObs_val]
    by_cases hk : k = p.1
    · subst hk
      rw [if_pos rfl, mem_setAdd]
      constructor
      · rintro ((h | h) | h)
        · exact Or.inl h
        · subst h; exact Or.inr (List.mem_cons_self _ _)
        · exact Or.inr (List.mem_cons_of_mem _ h)
      · rintro (h | h)
        · exact Or.inl (Or.inl h)
        · rcases List.mem_cons.mp h with h | h
          · left; right
            exact congrArg Prod.snd h
          · exact Or.inr h
    · rw [if_neg hk]
      constructor
      · rintro (h | h)
        · exact Or.inl h
        · exact Or.inr (List.mem_cons_of_mem _ h)
      · rintro (h | h)
        · exact Or.inl h
        · rcases List.mem_cons.mp h with h | h
          · exact absurd (congrArg Prod.fst h) hk
          · exact Or.inr h

theorem mem_keys_observeFrom (ps : List (RKey × RVal)) :
    ∀ (a : AccF) (k : RKey),
      k ∈ (observeFrom a ps).keys ↔ k ∈ a.keys ∨ ∃ v, (k, v) ∈ ps := by
  induction ps with
  | nil => simp [observeFrom_nil]
  | cons p ps ih =>
    intro a k
    rw [observeFrom_cons, ih, mem_keys_addObs]
    constructor
    · rintro ((h | h) | ⟨v, hv⟩)
      · exact Or.inl h
      · subst h; exact Or.inr ⟨p.2, List.mem_cons_self _ _⟩
      · exact Or.inr ⟨v, List.mem_cons_of_mem _ hv⟩
    · rintro (h | ⟨v, hv⟩)
      · exact Or.inl (Or.inl h)
      · rcases List.mem_cons.mp hv with h | h
        · left; right; exact congrArg Prod.fst h
        · exact Or.inr ⟨v, h⟩

theorem nodup_val_observeFrom (ps : List (RKey × RVal)) :
    ∀ (a : AccF) (k : RKey), (a.val k).Nodup → ((observeFrom a ps).val k).Nodup := by
  induction ps with
  | nil => intro a k h; exact h
  | cons p ps ih =>
    intro a k h
    rw [observeFrom_cons]
    apply ih
    rw [addObs_val]
    split
    · exact nodup_setAdd _ _ h
    · exact h

theorem val_ne_nil_observeFrom (ps : List (RKey × RVal)) :
    ∀ a : AccF, (∀ q ∈ a.keys, a.val q ≠ []) →
      ∀ k2 ∈ (observeFrom a ps).keys, (observeFrom a ps).val k2 ≠ [] := by
  induction ps with
  | nil => intro a h; exact h
  | cons p ps ih =>
    intro a h
    rw [observeFrom_cons]
    apply ih
    intro q hq
    rw [addObs_val]
    by_cases hqp : q = p.1
    · rw [if_pos hqp]; exact setAdd_ne_nil _ _
    · rw [if_neg hqp]
      apply h
      rcases (mem_keys_addObs a p.1 p.2 q).mp hq with h2 | h2
      · exact h2
      · exact absurd h2 hqp

theorem observeRows_from (rows : List Record) :
    ∀ a : AccF, rows.foldl (fun acc r => observeFrom acc r) a =
      observeFrom a (rows.flatMap (fun r => r)) := by
  induction rows with
  | nil => intro a; rfl
  | cons r rows ih =>
    intro a
    rw [List.foldl_cons, List.flatMap_cons, observeFrom_append, ih]

theorem observeRows_eq_flat (rows : List Record) :
    observeRows rows = observeFrom emptyAcc (rows.flatMap (fun r => r)) :=
  observeRows_from rows emptyAcc

theorem mem_colVals (rows : List Record) (k : RKey) (v : RVal) :
    v ∈ colVals rows k ↔ ∃ r ∈ rows, (k, v) ∈ r := by
  unfold colVals observeRows
  rw [observeRows_from, mem_val_observeFrom]
  simp [emptyAcc, List.mem_flatMap]

theorem nodup_colVals (rows : List Record) (k : RKey) : (colVals rows k).Nodup := by
  unfold colVals observeRows
  rw [observeRows_from]
  exact nodup_val_observeFrom _ _ _ (by simp [emptyAcc])

/-- Same members, no duplicates: the canonical ascending rendering agrees. -/
theorem ssort_eq_of_mem_nodup (l₁ l₂ : List String) (h₁ : l₁.Nodup) (h₂ : l₂.Nodup)
    (hm : ∀ a, a ∈ l₁ ↔ a ∈ l₂) : ssort l₁ = ssort l₂ := by
  have hp : l₁.Perm l₂ := (List.perm_ext_iff_of_nodup h₁ h₂).mpr hm
  have hp2 : (ssort l₁).Perm (ssort l₂) :=
    ((List.perm_insertionSort strLe l₁).trans hp).trans
      (List.perm_insertionSort strLe l₂).symm
  exact List.eq_of_perm_of_sorted hp2
    (List.sorted_insertionSort strLe l₁) (List.sorted_insertionSort strLe l₂)

theorem mapOpt_eq_some_of_isSome (f : α → Option β) :
    ∀ l : List α, (∀ a ∈ l, (f a).isSome) →
      ∃ l2, mapOpt f l = some l2 ∧ List.Forall₂ (fun a b => f a = some b) l l2 := by
  intro l
  induction l with
  | nil => intro _; exact ⟨[], rfl, List.Forall₂.nil⟩
  | cons a l ih =>
    intro h
    obtain ⟨b, hb⟩ := Option.isSome_iff_exists.mp (h a (List.mem_cons_self _ _))
    obtain ⟨l2, hl2, hf⟩ := ih (fun x hx => h x (List.mem_cons_of_mem _ hx))
    refine ⟨b :: l2, ?_, List.Forall₂.cons hb hf⟩
    simp [mapOpt, hb, hl2]

theorem forall₂_mem_left {R : α → β → Prop} :
    ∀ {l : List α} {l2 : List β}, List.Forall₂ R l l2 → ∀ a ∈ l, ∃ b ∈ l2, R a b := by
  intro l l2 h
  induction h with
  | nil => intro a ha; cases ha
  | cons hR _ ih =>
    intro a ha
    rcases List.mem_cons.mp ha with rfl | ha
    · exact ⟨_, List.mem_cons_self _ _, hR⟩
    · obtain ⟨b, hb, hRb⟩ := ih a ha
      exact ⟨b, List.mem_cons_of_mem _ hb, hRb⟩

theorem forall₂_mem_right {R : α → β → Prop} :
    ∀ {l : List α} {l2 : List β}, List.Forall₂ R l l2 → ∀ b ∈ l2, ∃ a ∈ l, R a b := by
  intro l l2 h
  induction h with
  | nil => intro b hb; cases hb
  | cons hR _ ih =>
    intro b hb
    rcases List.mem_cons.mp hb with rfl | hb
    · exact ⟨_, List.mem_cons_self _ _, hR⟩
    · obtain ⟨a, ha, hRa⟩ := ih b hb
      exact ⟨a, List.mem_cons_of_mem _ ha, hRa⟩

theorem foldl_min_mem [LinearOrder α] :
    ∀ (xs : List α) (x : α), xs.foldl (fun a b => min a b) x ∈ x :: xs := by
  intro xs
  induction xs with
  | nil => intro x; exact List.mem_singleton.mpr rfl
  | cons y ys ih =>
    intro x
    rcases List.mem_cons.mp (ih (min x y)) with h | h
    · rcases min_choice x y with hc | hc
      · rw [List.foldl_cons, h, hc]; exact List.mem_cons_self _ _
      · rw [List.foldl_cons, h, hc]
        exact List.mem_cons_of_mem _ (List.mem_cons_self _ _)
    · exact List.mem_cons_of_mem _ (List.mem_cons_of_mem _ h)

theorem foldl_min_le [LinearOrder α] :
    ∀ (xs : List α) (x : α), xs.foldl (fun a b => min a b) x ≤ x ∧
      ∀ y ∈ xs, xs.foldl (fun a b => min a b) x ≤ y := by
  intro xs
  induction xs with
  | nil => intro x; exact ⟨le_refl x, fun y hy => absurd hy (List.not_mem_nil y)⟩
  | cons z zs ih =>
    intro x
    obtain ⟨h1, h2⟩ := ih (min x z)
    refine ⟨le_trans h1 (min_le_left x z), fun y hy => ?_⟩
    rcases List.mem_cons.mp hy with rfl | hy
    · exact le_trans h1 (min_le_right x y)
    · exact h2 y hy

theorem foldl_max_mem [LinearOrder α] :
    ∀ (xs : List α) (x : α), xs.foldl (fun a b => max a b) x ∈ x :: xs := by
  intro xs
  induction xs with
  | nil => intro x; exact List.mem_singleton.mpr rfl
  | cons y ys ih =>
    intro x
    rcases List.mem_cons.mp (ih (max x y)) with h | h
    · rcases max_choice x y with hc | hc
      · rw [List.foldl_cons, h, hc]; exact List.mem_cons_self _ _
      · rw [List.foldl_cons, h, hc]
        exact List.mem_cons_of_mem _ (List.mem_cons_self _ _)
    · exact List.mem_cons_of_mem _ (List.mem_cons_of_mem _ h)

theorem foldl_max_le [LinearOrder α] :
    ∀ (xs : List α) (x : α), x ≤ xs.foldl (fun a b => max a b) x ∧
      ∀ y ∈ xs, y ≤ xs.foldl (fun a b => max a b) x := by
  intro xs
  induction xs with
  | nil => intro x; exact ⟨le_refl x, fun y hy => absurd hy (List.not_mem_nil y)⟩
  | cons z zs ih =>
    intro x
    obtain ⟨h1, h2⟩ := ih (max x z)
    refine ⟨le_trans (le_max_left x z) h1, fun y hy => ?_⟩
    rcases List.mem_cons.mp hy with rfl | hy
    · exact le_trans (le_max_right x y) h1
    · exact h2 y hy

theorem listMinD_mem [LinearOrder α] (d : α) (l : List α) (h : l ≠ []) :
    listMinD d l ∈ l := by
  cases l with
  | nil => exact absurd rfl h
  | cons x xs => exact foldl_min_mem xs x

theorem listMinD_le [LinearOrder α] (d : α) (l : List α) :
    ∀ y ∈ l, listMinD d l ≤ y := by
  cases l with
  | nil => intro y hy; cases hy
  | cons x xs =>
    intro y hy
    rcases List.mem_cons.mp hy with rfl | hy
    · exact (foldl_min_le xs y).1
    · exact (foldl_min_le xs x).2 y hy

theorem listMaxD_mem [LinearOrder α] (d : α) (l : List α) (h : l ≠ []) :
    listMaxD d l ∈ l := by
  cases l with
  | nil => exact absurd rfl h
  | cons x xs => exact foldl_max_mem xs x

theorem le_listMaxD [LinearOrder α] (d : α) (l : List α) :
    ∀ y ∈ l, y ≤ listMaxD d l := by
  cases l with
  | nil => intro y hy; cases hy
  | cons x xs =>
    intro y hy
    rcases List.mem_cons.mp hy with rfl | hy
    · exact (foldl_max_le xs y).1
    · exact (foldl_max_le xs x).2 y hy

/-- A set of 6 or more distinct members cannot sit inside the 3-member
boring set. -/
theorem not_boring_of_six (s : List String) (hnd : s.Nodup) (hlen : 6 ≤ s.length) :
    s.all (fun v => BORING_LIST.contains v) ≠ true := by
  intro hall
  rw [List.all_eq_true] at hall
  have hsub : s.toFinset ⊆ BORING_LIST.toFinset := by
    intro v hv
    rw [List.mem_toFinset] at hv ⊢
    exact (contains_iff_mem_str _ _).mp (hall v hv)
  have h3 : s.toFinset.card ≤ BORING_LIST.toFinset.card := Finset.card_le_card hsub
  rw [List.toFinset_card_of_nodup hnd] at h3
  have hb : BORING_LIST.toFinset.card = 3 := by decide
  omega

/-- Every member of the erased working set is a non-empty member of the
original set. -/
theorem mem_erase_empty (s : List String) (hnd : s.Nodup) (v : String)
    (hv : v ∈ s.erase "") : v ≠ "" ∧ v ∈ s := by
  rw [List.Nodup.mem_erase_iff hnd] at hv
  exact hv

/-- The erased working set of a 6-member-or-larger set is non-empty. -/
theorem erase_empty_ne_nil (s : List String) (hlen : 6 ≤ s.length) :
    s.erase "" ≠ [] := by
  by_cases hm : "" ∈ s
  · have := List.length_erase_of_mem hm
    intro hnil
    rw [hnil] at this
    simp at this
    omega
  · rw [List.erase_of_not_mem hm]
    intro hnil
    rw [hnil] at hlen
    simp at hlen

/-! ## Claim C2 -/

/-- C2: the classification rules apply in priority order with the boring rule
first: any value set that is a subset of the boring set prints exactly the
one line boring: name regardless of its size, so a singleton zero set is not
reported as constant and a two-member blank-and-zero set is not reported as
limited. -/
theorem c2_boring_first (name : String) (s : List String)
    (h : s ⊆ BORING_LIST) :
    showSet name s = "boring: " ++ name := by
  have hc : s.all (fun v => BORING_LIST.contains v) = true := by
    rw [List.all_eq_true]
    intro v hv
    exact (contains_iff_mem_str _ _).mpr (h hv)
  unfold showSet
  rw [if_pos hc]

/-- C2 witness: the two-member set of the empty string and the string 0 is
boring, not limited. -/
theorem c2_boring_first_w :
    (["", "0"] : List String) ⊆ BORING_LIST ∧ showSet "x" ["", "0"] = "boring: x" :=
  ⟨by decide, c2_boring_first "x" ["", "0"] (by decide)⟩

/-! ## Claim C1 -/

/-- C1 counterexample: the spec's six-member scenario set containing the
empty string is printed with count 5, not its original size 6, because
a_set.remove('') runs before len(a_set) is taken for the output line. -/
theorem c1_ranged_count_cx :
    showSet "col" ["", "0", "5", "10", "15", "20"] =
      "5 different integer values for col ranging from 0 to 20 excluding empties" ∧
    showSet "col" ["", "0", "5", "10", "15", "20"] ≠
      "6 different integer values for col ranging from 0 to 20 excluding empties" := by
  exact ⟨rfl, by decide⟩

/-- C1 (amended): in the ranged tier, when the accumulated set contained the
empty string the printed count is the original size minus one — the size
after the removal — together with the excluding-empties suffix. -/
theorem c1_ranged_count_amended (name : String) (s : List String)
    (hnd : s.Nodup) (hmem : "" ∈ s) (hlen : 6 ≤ s.length) :
    ∃ stype mn mx, showSet name s =
      mkRanged (s.length - 1) stype name mn mx " excluding empties" := by
  have hbor := not_boring_of_six s hnd hlen
  have hne1 : ¬ s.length = 1 := by omega
  have hne5 : ¬ s.length ≤ 5 := by omega
  have hcontains : s.contains "" = true := (contains_iff_mem_str _ _).mpr hmem
  have hel : (s.erase "").length = s.length - 1 := List.length_erase_of_mem hmem
  cases hm : mapOpt pyInt (s.erase "") with
  | some ints =>
    refine ⟨"integer ", toString (listMinD 0 ints), toString (listMaxD 0 ints), ?_⟩
    unfold showSet
    rw [if_neg hbor, if_neg hne1, if_neg hne5]
    simp only [hcontains, hm, hel, if_true]
  | none =>
    cases hq : mapOpt pyFloat (s.erase "") with
    | some qs =>
      refine ⟨"float ", ratRepr (listMinD 0 qs), ratRepr (listMaxD 0 qs), ?_⟩
      unfold showSet
      rw [if_neg hbor, if_neg hne1, if_neg hne5]
      simp only [hcontains, hm, hq, hel, if_true]
    | none =>
      refine ⟨"", listMinStr "" (s.erase ""), listMaxStr "" (s.erase ""), ?_⟩
      unfold showSet
      rw [if_neg hbor, if_neg hne1, if_neg hne5]
      simp only [hcontains, hm, hq, hel, if_true]

/-- C1 amended witness: the scenario set is reported with count 5. -/
theorem c1_ranged_count_amended_w :
    (["", "0", "5", "10", "15", "20"] : List String).Nodup ∧
    "" ∈ (["", "0", "5", "10", "15", "20"] : List String) ∧
    6 ≤ (["", "0", "5", "10", "15", "20"] : List String).length ∧
    ∃ stype mn mx, showSet "col" ["", "0", "5", "10", "15", "20"] =
      mkRanged 5 stype "col" mn mx " excluding empties" := by
  refine ⟨by decide, by decide, by decide, ?_⟩
  have h := c1_ranged_count_amended "col" ["", "0", "5", "10", "15", "20"]
    (by decide) (by decide) (by decide)
  simpa using h

/-! ## Claim C10 -/

/-- C10: invariant of the aggregation loop: a key is created only together
with an inserted value, so after any stream of observations from the empty
accumulator every present key maps to a non-empty value set and has an
observed pair witnessing it; the classifier therefore never sees an empty
set. -/
theorem c10_acc_nonempty (ps : List (RKey × RVal)) (k : RKey)
    (hk : k ∈ (observeFrom emptyAcc ps).keys) :
    (observeFrom emptyAcc ps).val k ≠ [] ∧ ∃ v, (k, v) ∈ ps := by
  constructor
  · exact val_ne_nil_observeFrom ps emptyAcc (by simp [emptyAcc]) k hk
  · rcases (mem_keys_observeFrom ps emptyAcc k).mp hk with h | h
    · simp [emptyAcc] at h
    · exact h

/-- C10 witness: one observation creates one key with a one-member set. -/
theorem c10_acc_nonempty_w :
    (some "a" ∈ (observeFrom emptyAcc [(some "a", RVal.str "1")]).keys) ∧
    ((observeFrom emptyAcc [(some "a", RVal.str "1")]).val (some "a") ≠ [] ∧
      ∃ v, ((some "a" : RKey), v) ∈ [((some "a" : RKey), RVal.str "1")]) :=
  ⟨by decide, c10_acc_nonempty [(some "a", RVal.str "1")] (some "a") (by decide)⟩

/-! ## Claim C4 -/

/-- C4: with at least 6 distinct values whose non-empty members all parse as
base-10 integers, the ranged tier labels the column integer and reports the
true numeric minimum and maximum of the parsed values (empty string
excluded); these bound every parsed value and are attained by members of the
working set. -/
theorem c4_integer_tier (name : String) (s : List String) (hnd : s.Nodup)
    (hlen : 6 ≤ s.length) (hint : ∀ v ∈ s, v ≠ "" → (pyInt v).isSome = true) :
    ∃ mn mx : ℤ,
      showSet name s = mkRanged (s.erase "").length "integer " name
        (toString mn) (toString mx)
        (if s.contains "" then " excluding empties" else "") ∧
      (∃ u ∈ s.erase "", pyInt u = some mn) ∧
      (∃ u ∈ s.erase "", pyInt u = some mx) ∧
      (∀ v ∈ s.erase "", ∀ n : ℤ, pyInt v = some n → mn ≤ n ∧ n ≤ mx) := by
  have hbor := not_boring_of_six s hnd hlen
  have hne1 : ¬ s.length = 1 := by omega
  have hne5 : ¬ s.length ≤ 5 := by omega
  have ht : ∀ v ∈ s.erase "", (pyInt v).isSome = true := by
    intro v hv
    obtain ⟨hne, hmem⟩ := mem_erase_empty s hnd v hv
    exact hint v hmem hne
  obtain ⟨ints, hm, hf⟩ := mapOpt_eq_some_of_isSome pyInt (s.erase "") ht
  have htne : s.erase "" ≠ [] := erase_empty_ne_nil s hlen
  have hine : ints ≠ [] := by
    intro hnil
    rw [hnil] at hf
    cases hf2 : s.erase "" with
    | nil => exact htne hf2
    | cons x xs => rw [hf2] at hf; cases hf
  refine ⟨listMinD 0 ints, listMaxD 0 ints, ?_, ?_, ?_, ?_⟩
  · unfold showSet
    rw [if_neg hbor, if_neg hne1, if_neg hne5]
    simp only [hm]
  · obtain ⟨u, hu, hpu⟩ := forall₂_mem_right hf _ (listMinD_mem 0 ints hine)
    exact ⟨u, hu, hpu⟩
  · obtain ⟨u, hu, hpu⟩ := forall₂_mem_right hf _ (listMaxD_mem 0 ints hine)
    exact ⟨u, hu, hpu⟩
  · intro v hv n hn
    obtain ⟨b, hb, hpb⟩ := forall₂_mem_left hf v hv
    have hbn : b = n := by
      rw [hn] at hpb
      exact (Option.some.inj hpb).symm
    subst hbn
    exact ⟨listMinD_le 0 ints b hb, le_listMaxD 0 ints b hb⟩

/-- C4 witness: six integer-parsing values are classified as the integer
tier with numeric bounds. -/
theorem c4_integer_tier_w :
    (["4", "-1", "10", "2", "30", "7"] : List String).Nodup ∧
    6 ≤ (["4", "-1", "10", "2", "30", "7"] : List String).length ∧
    (∀ v ∈ (["4", "-1", "10", "2", "30", "7"] : List String),
      v ≠ "" → (pyInt v).isSome = true) ∧
    ∃ mn mx : ℤ,
      showSet "c" ["4", "-1", "10", "2", "30", "7"] =
        mkRanged ((["4", "-1", "10", "2", "30", "7"] : List String).erase "").length
          "integer " "c" (toString mn) (toString mx)
          (if (["4", "-1", "10", "2", "30", "7"] : List String).contains ""
            then " excluding empties" else "") ∧
      (∃ u ∈ (["4", "-1", "10", "2", "30", "7"] : List String).erase "",
        pyInt u = some mn) ∧
      (∃ u ∈ (["4", "-1", "10", "2", "30", "7"] : List String).erase "",
        pyInt u = some mx) ∧
      (∀ v ∈ (["4", "-1", "10", "2", "30", "7"] : List String).erase "",
        ∀ n : ℤ, pyInt v = some n → mn ≤ n ∧ n ≤ mx) :=
  ⟨by decide, by decide, by decide,
    c4_integer_tier "c" ["4", "-1", "10", "2", "30", "7"]
      (by decide) (by decide) (by decide)⟩

/-! ## Claim C3 -/

theorem valIsStr_exists (v : RVal) (h : valIsStr v = true) : ∃ a, v = RVal.str a := by
  cases v with
  | str a => exact ⟨a, rfl⟩
  | pynone => exact Bool.noConfusion h
  | extra l => exact Bool.noConfusion h

theorem nodup_map_valStr (s : List RVal) (hstr : ∀ v ∈ s, valIsStr v = true)
    (hnd : s.Nodup) : (s.map valStr).Nodup := by
  induction s with
  | nil => exact List.nodup_nil
  | cons v vs ih =>
    rw [List.nodup_cons] at hnd
    rw [List.map_cons, List.nodup_cons]
    refine ⟨?_, ih (fun w hw => hstr w (List.mem_cons_of_mem _ hw)) hnd.2⟩
    intro hmem
    obtain ⟨w, hw, hvw⟩ := List.mem_map.mp hmem
    obtain ⟨a, rfl⟩ := valIsStr_exists v (hstr v (List.mem_cons_self _ _))
    obtain ⟨b, rfl⟩ := valIsStr_exists w (hstr w (List.mem_cons_of_mem _ hw))
    simp only [valStr] at hvw
    subst hvw
    exact hnd.1 hw

theorem mem_map_valStr (s : List RVal) (hstr : ∀ v ∈ s, valIsStr v = true) (a : String) :
    a ∈ s.map valStr ↔ RVal.str a ∈ s := by
  constructor
  · intro h
    obtain ⟨w, hw, hwa⟩ := List.mem_map.mp h
    obtain ⟨b, rfl⟩ := valIsStr_exists w (hstr w hw)
    simp only [valStr] at hwa
    subst hwa
    exact hw
  · intro h
    exact List.mem_map.mpr ⟨RVal.str a, h, rfl⟩

/-- The limited tier of show_set, lifted through the accumulator value
type. -/
theorem showSetPy_limited (name : String) (s : List RVal)
    (hstr : s.all valIsStr = true)
    (h2 : 2 ≤ s.length) (h5 : s.length ≤ 5)
    (hbor : (s.map valStr).all (fun v => BORING_LIST.contains v) ≠ true) :
    showSetPy name s =
      .ok ("limited: " ++ name ++ "=" ++ pyListRepr (ssort (s.map valStr))) := by
  unfold showSetPy
  rw [if_pos hstr]
  unfold showSet
  have hlen : (s.map valStr).length = s.length := List.length_map s valStr
  rw [if_neg hbor, if_neg (by rw [hlen]; omega), if_pos (by rw [hlen]; omega)]

/-- C3: a column accumulating between 2 and 5 distinct string values that
are not all boring prints the limited line whose bracketed list holds
exactly the set's members, each exactly once, in ascending code-point
order; the accumulated set — hence the whole line — is the same for every
permutation of the input rows. -/
theorem c3_limited_tier (name : String) (rows1 rows2 : List Record)
    (hp : rows1.Perm rows2)
    (hstr : (colVals rows1 (some name)).all valIsStr = true)
    (h2 : 2 ≤ (colVals rows1 (some name)).length)
    (h5 : (colVals rows1 (some name)).length ≤ 5)
    (hbor : ((colVals rows1 (some name)).map valStr).all
      (fun v => BORING_LIST.contains v) ≠ true) :
    ∃ l : List String,
      showSetPy name (colVals rows1 (some name)) =
        .ok ("limited: " ++ name ++ "=" ++ pyListRepr l) ∧
      showSetPy name (colVals rows2 (some name)) =
        .ok ("limited: " ++ name ++ "=" ++ pyListRepr l) ∧
      List.Sorted strLe l ∧ l.Nodup ∧
      (∀ a : String, a ∈ l ↔ RVal.str a ∈ colVals rows1 (some name)) := by
  set k : RKey := some name with hk
  set s1 := colVals rows1 k with hs1
  set s2 := colVals rows2 k with hs2
  have hsame : ∀ v, v ∈ s1 ↔ v ∈ s2 := by
    intro v
    rw [hs1, hs2, mem_colVals, mem_colVals]
    constructor
    · rintro ⟨r, hr, hv⟩; exact ⟨r, hp.mem_iff.mp hr, hv⟩
    · rintro ⟨r, hr, hv⟩; exact ⟨r, hp.mem_iff.mpr hr, hv⟩
  have hnd1 : s1.Nodup := nodup_colVals rows1 k
  have hnd2 : s2.Nodup := nodup_colVals rows2 k
  have hstr1 : ∀ v ∈ s1, valIsStr v = true := List.all_eq_true.mp hstr
  have hstr2 : ∀ v ∈ s2, valIsStr v = true := fun v hv =>
    hstr1 v ((hsame v).mpr hv)
  have hperm : s1.Perm s2 := (List.perm_ext_iff_of_nodup hnd1 hnd2).mpr hsame
  have hlen2 : s2.length = s1.length := hperm.length_eq.symm
  have hmapmem : ∀ a : String, a ∈ s1.map valStr ↔ a ∈ s2.map valStr := by
    intro a
    rw [mem_map_valStr s1 hstr1, mem_map_valStr s2 hstr2]
    exact hsame (RVal.str a)
  have hsorteq : ssort (s2.map valStr) = ssort (s1.map valStr) :=
    ssort_eq_of_mem_nodup _ _ (nodup_map_valStr s2 hstr2 hnd2)
      (nodup_map_valStr s1 hstr1 hnd1) (fun a => (hmapmem a).symm)
  have hbor2 : (s2.map valStr).all (fun v => BORING_LIST.contains v) ≠ true := by
    intro hall
    apply hbor
    rw [List.all_eq_true] at hall ⊢
    intro v hv
    exact hall v ((hmapmem v).mp hv)
  refine ⟨ssort (s1.map valStr), ?_, ?_, ?_, ?_, ?_⟩
  · exact showSetPy_limited name s1 hstr h2 h5 hbor
  · rw [showSetPy_limited name s2 (List.all_eq_true.mpr hstr2)
      (by omega) (by omega) hbor2, hsorteq]
  · exact List.sorted_insertionSort strLe _
  · exact ((List.perm_insertionSort strLe _).nodup_iff).mpr
      (nodup_map_valStr s1 hstr1 hnd1)
  · intro a
    rw [ssort, List.mem_insertionSort]
    exact mem_map_valStr s1 hstr1 a

/-- C3 witness: two one-column rows in either order give the same sorted
limited line. -/
theorem c3_limited_tier_w :
    ([[((some "c" : RKey), RVal.str "2")], [((some "c" : RKey), RVal.str "1")]] :
      List Record).Perm
      [[((some "c" : RKey), RVal.str "1")], [((some "c" : RKey), RVal.str "2")]] ∧
    ∃ l : List String,
      showSetPy "c" (colVals
        [[((some "c" : RKey), RVal.str "2")], [((some "c" : RKey), RVal.str "1")]]
        (some "c")) = .ok ("limited: " ++ "c" ++ "=" ++ pyListRepr l) ∧
      showSetPy "c" (colVals
        [[((some "c" : RKey), RVal.str "1")], [((some "c" : RKey), RVal.str "2")]]
        (some "c")) = .ok ("limited: " ++ "c" ++ "=" ++ pyListRepr l) ∧
      List.Sorted strLe l ∧ l.Nodup ∧
      (∀ a : String, a ∈ l ↔ RVal.str a ∈ colVals
        [[((some "c" : RKey), RVal.str "2")], [((some "c" : RKey), RVal.str "1")]]
        (some "c")) :=
  ⟨by decide,
    c3_limited_tier "c"
      [[((some "c" : RKey), RVal.str "2")], [((some "c" : RKey), RVal.str "1")]]
      [[((some "c" : RKey), RVal.str "1")], [((some "c" : RKey), RVal.str "2")]]
      (by decide) (by decide) (by decide) (by decide) (by decide)⟩

/-! ## Dict lemmas and claim C6 -/

theorem lookup_map_overwrite (d : Record) (k : RKey) (v : RVal)
    (h : d.any (fun p => p.1 == k) = true) :
    List.lookup k (d.map (fun p => if p.1 == k then (k, v) else p)) = some v := by
  induction d with
  | nil => cases h
  | cons p d ih =>
    rw [List.any_cons, Bool.or_eq_true] at h
    rw [List.map_cons]
    by_cases hp : p.1 = k
    · rw [if_pos (beq_iff_eq.mpr hp)]
      simp [List.lookup]
    · have hbe : (p.1 == k) = false := beq_eq_false_iff_ne.mpr hp
      rw [if_neg (by rw [hbe]; exact Bool.noConfusion)]
      cases p with
      | mk p1 p2 =>
        have hke : (k == p1) = false := beq_eq_false_iff_ne.mpr (Ne.symm hp)
        rw [List.lookup_cons, hke]
        apply ih
        rcases h with h | h
        · exact absurd (beq_iff_eq.mp h) hp
        · exact h

theorem lookup_append_single (d : Record) (k : RKey) (v : RVal)
    (h : d.any (fun p => p.1 == k) = false) :
    List.lookup k (d ++ [(k, v)]) = some v := by
  induction d with
  | nil => simp [List.lookup]
  | cons p d ih =>
    rw [List.any_cons] at h
    rcases Bool.or_eq_false_iff.mp h with ⟨h1, h2⟩
    cases p with
    | mk p1 p2 =>
      have hke : (k == p1) = false := by
        cases hkk : k == p1
        · rfl
        · exact absurd (beq_iff_eq.mpr (beq_iff_eq.mp hkk).symm) (by rw [h1]; exact Bool.noConfusion)
      rw [List.cons_append, List.lookup_cons, hke]
      exact ih h2

theorem lookup_dictInsert_self (d : Record) (k : RKey) (v : RVal) :
    lookupRec (dictInsert d k v) k = some v := by
  unfold dictInsert lookupRec
  split
  · rename_i h; exact lookup_map_overwrite d k v h
  · rename_i h
    exact lookup_append_single d k v (Bool.eq_false_iff.mpr h)

theorem lookup_map_overwrite_other (d : Record) (k q : RKey) (v : RVal) (hqk : q ≠ k) :
    List.lookup q (d.map (fun p => if p.1 == k then (k, v) else p)) =
      List.lookup q d := by
  have hbe : (q == k) = false := beq_eq_false_iff_ne.mpr hqk
  induction d with
  | nil => rfl
  | cons p d ih =>
    rw [List.map_cons]
    cases p with
    | mk p1 p2 =>
      by_cases hp : p1 = k
      · rw [if_pos (beq_iff_eq.mpr hp)]
        rw [List.lookup_cons, List.lookup_cons, hbe]
        have hq1 : (q == p1) = false := by rw [hp]; exact hbe
        rw [hq1]
        exact ih
      · rw [if_neg (by rw [beq_eq_false_iff_ne.mpr hp]; exact Bool.noConfusion)]
        rw [List.lookup_cons, List.lookup_cons]
        cases hq1 : q == p1
        · exact ih
        · rfl

theorem lookup_append_single_other (d : Record) (k q : RKey) (v : RVal) (hqk : q ≠ k) :
    List.lookup q (d ++ [(k, v)]) = List.lookup q d := by
  have hbe : (q == k) = false := beq_eq_false_iff_ne.mpr hqk
  induction d with
  | nil => simp [List.lookup, hbe]
  | cons p d ih =>
    cases p with
    | mk p1 p2 =>
      rw [List.cons_append, List.lookup_cons, List.lookup_cons]
      cases hq1 : q == p1
      · exact ih
      · rfl

theorem lookup_dictInsert_other (d : Record) (k q : RKey) (v : RVal) (hqk : q ≠ k) :
    lookupRec (dictInsert d k v) q = lookupRec d q := by
  unfold dictInsert lookupRec
  split
  · exact lookup_map_overwrite_other d k q v hqk
  · exact lookup_append_single_other d k q v hqk

theorem lookup_mem_rec (d : Record) (k : RKey) (v : RVal)
    (h : List.lookup k d = some v) : (k, v) ∈ d := by
  induction d with
  | nil => cases h
  | cons p d ih =>
    cases p with
    | mk p1 p2 =>
      rw [List.lookup_cons] at h
      cases hk : k == p1
      · rw [hk] at h
        exact List.mem_cons_of_mem _ (ih h)
      · rw [hk] at h
        have h1 : k = p1 := beq_iff_eq.mp hk
        have h2 : p2 = v := Option.some.inj h
        subst h1; subst h2
        exact List.mem_cons_self _ _

theorem lookup_fill_stable (ks : List String) :
    ∀ (d : Record) (k : String), k ∉ ks →
      lookupRec (ks.foldl (fun d2 k2 => dictInsert d2 (some k2) RVal.pynone) d)
        (some k) = lookupRec d (some k) := by
  induction ks with
  | nil => intro d k _; rfl
  | cons k0 ks ih =>
    intro d k hk
    rw [List.foldl_cons, ih _ k (fun h => hk (List.mem_cons_of_mem _ h)),
      lookup_dictInsert_other]
    intro he
    exact hk (by rw [Option.some.inj he]; exact List.mem_cons_self _ _)

theorem lookup_fill (ks : List String) :
    ∀ (d : Record) (k : String), k ∈ ks → ks.Nodup →
      lookupRec (ks.foldl (fun d2 k2 => dictInsert d2 (some k2) RVal.pynone) d)
        (some k) = some RVal.pynone := by
  induction ks with
  | nil => intro d k hk _; cases hk
  | cons k0 ks ih =>
    intro d k hk hnd
    rw [List.foldl_cons]
    rcases List.mem_cons.mp hk with rfl | hk
    · rw [lookup_fill_stable ks _ k (List.nodup_cons.mp hnd).1]
      exact lookup_dictInsert_self d (some k) RVal.pynone
    · exact ih _ k hk (List.nodup_cons.mp hnd).2

/-- C6 counterexample: parsing the row 1 against the header a,b yields a
record in which the missing column b is present with value None, and
observing that record puts None into the accumulator set of b. -/
theorem c6_short_row_cx :
    ((some "b" : RKey), RVal.pynone) ∈ mkRecord ["a", "b"] ["1"] ∧
    RVal.pynone ∈ (observeFrom emptyAcc (mkRecord ["a", "b"] ["1"])).val (some "b") :=
  ⟨by decide, by decide⟩

/-- C6 (amended): a data row with fewer fields than the header does not
leave the missing columns absent: DictReader fills each missing column with
its restval default None, so the record maps the column to None and
observing the record adds None to that column's accumulator set. -/
theorem c6_short_row (header fields : List String) (hnd : header.Nodup)
    (hlt : fields.length < header.length) (k : String)
    (hk : k ∈ header.drop fields.length) :
    lookupRec (mkRecord header fields) (some k) = some RVal.pynone ∧
    ((some k : RKey), RVal.pynone) ∈ mkRecord header fields ∧
    ∀ acc : AccF, RVal.pynone ∈ (observeFrom acc (mkRecord header fields)).val (some k) := by
  have hlook : lookupRec (mkRecord header fields) (some k) = some RVal.pynone := by
    unfold mkRecord
    rw [if_neg (by omega)]
    exact lookup_fill (header.drop fields.length) _ k hk
      ((List.drop_sublist _ _).nodup hnd)
  have hmem : ((some k : RKey), RVal.pynone) ∈ mkRecord header fields :=
    lookup_mem_rec _ _ _ hlook
  exact ⟨hlook, hmem, fun acc =>
    (mem_val_observeFrom _ acc (some k) RVal.pynone).mpr (Or.inr hmem)⟩

/-- C6 amended witness: header a,b with row 1 leaves b mapped to None. -/
theorem c6_short_row_w :
    (["a", "b"] : List String).Nodup ∧
    (["1"] : List String).length < (["a", "b"] : List String).length ∧
    "b" ∈ (["a", "b"] : List String).drop (["1"] : List String).length ∧
    (lookupRec (mkRecord ["a", "b"] ["1"]) (some "b") = some RVal.pynone ∧
      ((some "b" : RKey), RVal.pynone) ∈ mkRecord ["a", "b"] ["1"] ∧
      ∀ acc : AccF,
        RVal.pynone ∈ (observeFrom acc (mkRecord ["a", "b"] ["1"])).val (some "b")) :=
  ⟨by decide, by decide, by decide,
    c6_short_row ["a", "b"] ["1"] (by decide) (by decide) "b" (by decide)⟩

/-! ## Loop lemmas and claims C5, C7 -/

theorem foldExc_cons (f : σ → α → Except PyExc σ) (s : σ) (a : α) (l : List α) :
    foldExc f s (a :: l) =
      match f s a with
      | .error e => .error e
      | .ok s2 => foldExc f s2 l := rfl

theorem foldExc_append (f : σ → α → Except PyExc σ) (l₁ l₂ : List α) :
    ∀ s : σ, foldExc f s (l₁ ++ l₂) =
      match foldExc f s l₁ with
      | .error e => .error e
      | .ok s2 => foldExc f s2 l₂ := by
  induction l₁ with
  | nil => intro s; rfl
  | cons a l ih =>
    intro s
    rw [List.cons_append, foldExc_cons, foldExc_cons]
    cases hfa : f s a with
    | error e => rfl
    | ok s2 =>
      show foldExc f s2 (l ++ l₂) = _
      rw [ih s2]

theorem processFile_sniff_error (args : Args) (fs : String → FileRes) (st : RunSt)
    (name content : String) (hd : args.dialect = none)
    (hfs : fs name = FileRes.ok content)
    (hsn : sniff (sample1024 content) = .error PyExc.csvError) :
    processFile args fs st name = .error PyExc.csvError := by
  have hres : resolveDelim args content = .error PyExc.csvError := by
    unfold resolveDelim
    rw [hd]
    exact hsn
  unfold processFile
  rw [hfs]
  simp only [hres]

/-- C5 (amended): a sniffing failure (DialectUndetectable) is NOT treated
like a file-open error: it is never caught, so it aborts the entire run as
an unhandled exception — nothing is printed to stderr for it, nothing is
counted toward the exit code, and the files after it are never processed. -/
theorem c5_sniff_aborts (args : Args) (fs : String → FileRes)
    (pre post : List String) (name content : String) (st : RunSt)
    (hld : args.listDialects = false) (hd : args.dialect = none)
    (hfiles : filesOf args = pre ++ name :: post)
    (hpre : foldExc (processFile args fs) initSt pre = .ok st)
    (hfs : fs name = FileRes.ok content)
    (hsn : sniff (sample1024 content) = .error PyExc.csvError) :
    mainRun args fs = .error PyExc.csvError ∧
    topLevel (mainRun args fs) = .unhandled PyExc.csvError := by
  have hfold : foldExc (processFile args fs) initSt (filesOf args) =
      .error PyExc.csvError := by
    rw [hfiles, foldExc_append, hpre]
    show foldExc (processFile args fs) st (name :: post) = _
    unfold foldExc
    rw [processFile_sniff_error args fs st name content hd hfs hsn]
  have hrun : mainRun args fs = .error PyExc.csvError := by
    unfold mainRun
    rw [if_neg (by simp [hld]), hfold]
  exact ⟨hrun, by rw [hrun]; rfl⟩

/-- Input fixture for claim C5: the first file opens but its sample holds no
candidate delimiter, the second file is well-formed. -/
def fsC5 : String → FileRes := fun f =>
  if f = "a.csv" then FileRes.ok "alpha\nbeta\n" else FileRes.ok "h,k\n1,2\n"

/-- Argument fixture for claim C5. -/
def argsC5 : Args := ⟨none, false, [], ["a.csv", "b.csv"]⟩

/-- C5 counterexample: with an undetectable first file, main raises instead
of reporting, counting and continuing with the second file: the whole run
ends as an unhandled csv.Error. -/
theorem c5_sniff_cx :
    mainRun argsC5 fsC5 = .error PyExc.csvError ∧
    topLevel (mainRun argsC5 fsC5) = .unhandled PyExc.csvError :=
  ⟨rfl, rfl⟩

/-- C5 amended witness. -/
theorem c5_sniff_aborts_w :
    argsC5.listDialects = false ∧ argsC5.dialect = none ∧
    filesOf argsC5 = [] ++ "a.csv" :: ["b.csv"] ∧
    foldExc (processFile argsC5 fsC5) initSt [] = .ok initSt ∧
    fsC5 "a.csv" = FileRes.ok "alpha\nbeta\n" ∧
    sniff (sample1024 "alpha\nbeta\n") = .error PyExc.csvError ∧
    (mainRun argsC5 fsC5 = .error PyExc.csvError ∧
      topLevel (mainRun argsC5 fsC5) = .unhandled PyExc.csvError) :=
  ⟨rfl, rfl, rfl, rfl, rfl, rfl,
    c5_sniff_aborts argsC5 fsC5 [] ["b.csv"] "a.csv" "alpha\nbeta\n" initSt
      rfl rfl rfl rfl rfl rfl⟩

theorem processFile_rtn (args : Args) (fs : String → FileRes) (st : RunSt)
    (f : String) (s2 : RunSt) (h : processFile args fs st f = .ok s2) :
    s2.rtn = st.rtn + (if (fs f).isErr then 1 else 0) := by
  unfold processFile at h
  cases hfs : fs f with
  | err msg =>
    simp only [hfs] at h
    rw [← Except.ok.inj h]
    simp [hfs, FileRes.isErr]
  | ok content =>
    simp only [hfs] at h
    cases hr : resolveDelim args content with
    | error e => simp only [hr] at h; exact Except.noConfusion h
    | ok d =>
      simp only [hr] at h
      split at h
      · cases ho : foldExc observeRecord st.acc (pyRecords d content) with
        | error e => simp only [ho] at h; exact Except.noConfusion h
        | ok acc2 =>
          simp only [ho] at h
          rw [← Except.ok.inj h]
          simp [hfs, FileRes.isErr]
      · cases hm : mapExc (projRow args.columns) (pyRecords d content) with
        | error e => simp only [hm] at h; exact Except.noConfusion h
        | ok lines =>
          simp only [hm] at h
          rw [← Except.ok.inj h]
          simp [hfs, FileRes.isErr]

theorem foldExc_rtn (args : Args) (fs : String → FileRes) :
    ∀ (files : List String) (st st2 : RunSt),
      foldExc (processFile args fs) st files = .ok st2 →
      st2.rtn = st.rtn + (files.filter (fun f => (fs f).isErr)).length := by
  intro files
  induction files with
  | nil =>
    intro st st2 h
    rw [← Except.ok.inj h]
    simp
  | cons f l ih =>
    intro st st2 h
    unfold foldExc at h
    cases hf : processFile args fs st f with
    | error e => rw [hf] at h; cases h
    | ok s2 =>
      rw [hf] at h
      have h2 := ih s2 st2 h
      have h3 := processFile_rtn args fs st f s2 hf
      rw [List.filter_cons]
      cases he : (fs f).isErr
      · simp only [he, Bool.false_eq_true, if_false] at h3 ⊢
        omega
      · simp only [he, if_true, List.length_cons] at h3 ⊢
        omega

/-- C7 (amended): the exit code equals the open-failure count only for runs
that finish without an unhandled exception; --list-dialects exits 1 without
touching any file, and an interrupt exits 2.  (A run aborted by an uncaught
exception — e.g. a sniffing failure — does not exit with the open-failure
count; see the counterexample.) -/
theorem c7_exit_code (args : Args) (fs : String → FileRes) :
    (args.listDialects = true → mainRun args fs = .ok (DIALECT_NAMES, [], 1)) ∧
    topLevel (.error PyExc.keyboardInterrupt) = .code 2 ∧
    (∀ out errs rtn, args.listDialects = false →
      mainRun args fs = .ok (out, errs, rtn) →
      rtn = ((filesOf args).filter (fun f => (fs f).isErr)).length ∧
      topLevel (mainRun args fs) = .code rtn) := by
  refine ⟨?_, rfl, ?_⟩
  · intro h
    unfold mainRun
    rw [if_pos h]
  · intro out errs rtn hld hok
    have hok2 := hok
    unfold mainRun at hok
    rw [if_neg (by simp [hld])] at hok
    cases hfold : foldExc (processFile args fs) initSt (filesOf args) with
    | error e => simp only [hfold] at hok; exact Except.noConfusion hok
    | ok st =>
      simp only [hfold] at hok
      cases hcl : classifyPhase st.acc with
      | error e => simp only [hcl] at hok; exact Except.noConfusion hok
      | ok summary =>
        simp only [hcl] at hok
        have htriple := Except.ok.inj hok
        have hrtn : st.rtn = rtn := congrArg (fun p => p.2.2) htriple
        have hcount := foldExc_rtn args fs (filesOf args) initSt st hfold
        constructor
        · rw [← hrtn, hcount]
          simp [initSt]
        · rw [hok2]
          rfl

/-- Fixture for claim C7: one well-formed file and one that fails to open. -/
def fsC7 : String → FileRes := fun f =>
  if f = "good.csv" then FileRes.ok "h,k\n1,2\n"
  else FileRes.err "No such file or directory"

/-- Argument fixture for claim C7. -/
def argsC7 : Args := ⟨none, false, [], ["good.csv", "missing.csv"]⟩

/-- Second fixture for claim C7: every file opens, but the only file's
dialect is undetectable, so the run ends unhandled, not with exit code 0. -/
def fsC7b : String → FileRes := fun _ => FileRes.ok "alpha\nbeta\n"

/-- Second argument fixture for claim C7. -/
def argsC7b : Args := ⟨none, false, [], ["a.csv"]⟩

/-- C7 counterexample: a run whose single file opens fine (zero open
failures) does not exit with code 0 — it dies on an unhandled csv.Error. -/
theorem c7_exit_code_cx :
    ((filesOf argsC7b).filter (fun f => (fsC7b f).isErr)).length = 0 ∧
    topLevel (mainRun argsC7b fsC7b) = .unhandled PyExc.csvError :=
  ⟨rfl, rfl⟩

/-- C7 amended witness: list-dialects exits 1; interrupt exits 2; a completed
run exits with the open-failure count. -/
theorem c7_exit_code_w :
    mainRun ⟨none, true, [], []⟩ fsC7 = .ok (DIALECT_NAMES, [], 1) ∧
    topLevel (.error PyExc.keyboardInterrupt) = .code 2 ∧
    (1 = ((filesOf argsC7).filter (fun f => (fsC7 f).isErr)).length ∧
      topLevel (mainRun argsC7 fsC7) = .code 1) :=
  ⟨(c7_exit_code ⟨none, true, [], []⟩ fsC7).1 rfl,
    (c7_exit_code argsC7 fsC7).2.1,
    (c7_exit_code argsC7 fsC7).2.2
      ["constant: h=1", "constant: k=2"]
      ["csv_analyze.py: missing.csv: No such file or directory"] 1 rfl rfl⟩

/-! ## Claim C8 -/

/-- The stdout lines one input file contributes in projection mode. -/
def projBlock (args : Args) (fs : String → FileRes) (f : String) : List String :=
  match fs f with
  | .err _ => []
  | .ok content =>
    match resolveDelim args content with
    | .error _ => []
    | .ok d =>
      match mapExc (projRow args.columns) (pyRecords d content) with
      | .error _ => []
      | .ok lines => tabJoin args.columns :: lines

theorem processFile_projection (args : Args) (fs : String → FileRes)
    (hcols : args.columns.isEmpty = false)
    (st s2 : RunSt) (f : String) (h : processFile args fs st f = .ok s2) :
    s2.out = st.out ++ projBlock args fs f ∧ s2.acc = st.acc := by
  unfold processFile at h
  unfold projBlock
  cases hfs : fs f with
  | err msg =>
    simp only [hfs] at h
    rw [← Except.ok.inj h]
    simp
  | ok content =>
    simp only [hfs] at h
    cases hr : resolveDelim args content with
    | error e => simp only [hr] at h; exact Except.noConfusion h
    | ok d =>
      simp only [hr] at h
      rw [if_neg (by simp [hcols])] at h
      cases hm : mapExc (projRow args.columns) (pyRecords d content) with
      | error e => simp only [hm] at h; exact Except.noConfusion h
      | ok lines =>
        simp only [hm] at h
        rw [← Except.ok.inj h]
        simp [hr, hm]

theorem foldExc_projection (args : Args) (fs : String → FileRes)
    (hcols : args.columns.isEmpty = false) :
    ∀ (files : List String) (st st2 : RunSt),
      foldExc (processFile args fs) st files = .ok st2 →
      st2.out = st.out ++ files.flatMap (projBlock args fs) ∧ st2.acc = st.acc := by
  intro files
  induction files with
  | nil =>
    intro st st2 h
    rw [← Except.ok.inj h]
    simp
  | cons f l ih =>
    intro st st2 h
    rw [foldExc_cons] at h
    cases hf : processFile args fs st f with
    | error e => simp only [hf] at h; exact Except.noConfusion h
    | ok s2 =>
      simp only [hf] at h
      obtain ⟨ho, ha⟩ := processFile_projection args fs hcols st s2 f hf
      obtain ⟨ho2, ha2⟩ := ih s2 st2 h
      constructor
      · rw [ho2, ho, List.flatMap_cons, List.append_assoc]
      · rw [ha2, ha]

/-- C8 (amended): in projection mode the aggregation path is never invoked —
the accumulator stays empty and the classification phase prints nothing —
and the output is the concatenation of per-file blocks, each either empty
(an open failure) or one header line of the requested columns followed by
that file's projected rows; with several input files the header line thus
recurs once per file rather than appearing exactly once per run. -/
theorem c8_projection (args : Args) (fs : String → FileRes)
    (out errs : List String) (rtn : Nat)
    (hld : args.listDialects = false) (hcols : args.columns.isEmpty = false)
    (hok : mainRun args fs = .ok (out, errs, rtn)) :
    out = (filesOf args).flatMap (projBlock args fs) ∧
    (∀ f ∈ filesOf args, projBlock args fs f = [] ∨
      ∃ lines, projBlock args fs f = tabJoin args.columns :: lines) ∧
    ∃ st : RunSt, foldExc (processFile args fs) initSt (filesOf args) = .ok st ∧
      st.acc = emptyAcc ∧ classifyPhase st.acc = .ok [] := by
  unfold mainRun at hok
  rw [if_neg (by simp [hld])] at hok
  cases hfold : foldExc (processFile args fs) initSt (filesOf args) with
  | error e => simp only [hfold] at hok; exact Except.noConfusion hok
  | ok st =>
    simp only [hfold] at hok
    obtain ⟨ho, ha⟩ := foldExc_projection args fs hcols (filesOf args) initSt st hfold
    have hacc : st.acc = emptyAcc := by rw [ha]; rfl
    have hcl : classifyPhase st.acc = .ok [] := by rw [hacc]; rfl
    simp only [hcl] at hok
    have htriple := Except.ok.inj hok
    have hout : st.out ++ [] = out := congrArg (fun p => p.1) htriple
    refine ⟨?_, ?_, st, rfl, hacc, hcl⟩
    · rw [← hout, List.append_nil, ho]
      simp [initSt]
    · intro f _
      cases hfs : fs f with
      | err m => left; unfold projBlock; rw [hfs]
      | ok content =>
        cases hr : resolveDelim args content with
        | error e => left; unfold projBlock; rw [hfs]; simp only [hr]
        | ok d =>
          cases hm : mapExc (projRow args.columns) (pyRecords d content) with
          | error e => left; unfold projBlock; rw [hfs]; simp only [hr, hm]
          | ok lines =>
            right
            exact ⟨lines, by unfold projBlock; rw [hfs]; simp only [hr, hm]⟩

/-- Fixture for claim C8: two well-formed files in projection mode. -/
def fsC8 : String → FileRes := fun f =>
  if f = "a.csv" then FileRes.ok "h,k\n1,2\n" else FileRes.ok "h,k\n3,4\n"

/-- Argument fixture for claim C8: project column h from two files. -/
def argsC8 : Args := ⟨none, false, ["h"], ["a.csv", "b.csv"]⟩

/-- C8 counterexample: over two input files the header line h is printed
twice (once per file), not exactly once per run. -/
theorem c8_projection_cx :
    mainRun argsC8 fsC8 = .ok (["h", "1", "h", "3"], [], 0) ∧
    (["h", "1", "h", "3"] : List String).count "h" = 2 :=
  ⟨rfl, rfl⟩

/-- C8 amended witness. -/
theorem c8_projection_w :
    argsC8.listDialects = false ∧ argsC8.columns.isEmpty = false ∧
    mainRun argsC8 fsC8 = .ok (["h", "1", "h", "3"], [], 0) ∧
    (["h", "1", "h", "3"] = (filesOf argsC8).flatMap (projBlock argsC8 fsC8) ∧
      (∀ f ∈ filesOf argsC8, projBlock argsC8 fsC8 f = [] ∨
        ∃ lines, projBlock argsC8 fsC8 f = tabJoin argsC8.columns :: lines) ∧
      ∃ st : RunSt, foldExc (processFile argsC8 fsC8) initSt (filesOf argsC8) = .ok st ∧
        st.acc = emptyAcc ∧ classifyPhase st.acc = .ok []) :=
  ⟨rfl, rfl, rfl, c8_projection argsC8 fsC8 ["h", "1", "h", "3"] [] 0 rfl rfl rfl⟩

/-! ## Claim C9 -/

/-- All data rows of the parsed content have exactly the header's width. -/
def rowsWellFormed (d : Char) (content : String) : Bool :=
  match csvRows d content with
  | [] => true
  | header :: rest =>
    rest.all (fun row => row.isEmpty || row.length == header.length)

/-- Every requested projection column appears in the header. -/
def colsPresent (cols : List String) (d : Char) (content : String) : Bool :=
  match csvRows d content with
  | [] => true
  | header :: _ => cols.all (fun c => header.contains c)

/-- One input file is safe: it fails to open, or its content resolves a
delimiter, parses into rows of exactly the header's width, and (in
projection mode) contains every requested column in its header. -/
def fileGood (args : Args) (fs : String → FileRes) (f : String) : Bool :=
  match fs f with
  | .err _ => true
  | .ok content =>
    match resolveDelim args content with
    | .error _ => false
    | .ok d =>
      rowsWellFormed d content &&
        (args.columns.isEmpty || colsPresent args.columns d content)

/-- A healthy analysis-mode accumulator: every key is a real column name and
every stored value is a string. -/
def AccGood (acc : AccF) : Prop :=
  (∀ k ∈ acc.keys, k ≠ (none : RKey)) ∧
  (∀ (k : RKey) (v : RVal), v ∈ acc.val k → valIsStr v = true)

theorem contains_iff_mem_key (l : List RKey) (v : RKey) :
    l.contains v = true ↔ v ∈ l := by
  simp [List.contains_iff_exists_mem_beq, beq_iff_eq]

theorem mem_dictInsert (d : Record) (k : RKey) (v : RVal) (p : RKey × RVal)
    (h : p ∈ dictInsert d k v) : p ∈ d ∨ p = (k, v) := by
  unfold dictInsert at h
  split at h
  · obtain ⟨q, hq, hfq⟩ := List.mem_map.mp h
    cases hqk : q.1 == k
    · rw [hqk] at hfq
      simp only [Bool.false_eq_true, if_false] at hfq
      left; rw [← hfq]; exact hq
    · rw [hqk] at hfq
      simp only [if_true] at hfq
      right; exact hfq.symm
  · rcases List.mem_append.mp h with h | h
    · exact Or.inl h
    · right; exact List.mem_singleton.mp h

theorem fold_zip_pairs_good (ps : List (String × String)) :
    ∀ d : Record, (∀ p ∈ d, (∃ s, p.1 = some s) ∧ valIsStr p.2 = true) →
      ∀ p ∈ ps.foldl (fun d2 q => dictInsert d2 (some q.1) (RVal.str q.2)) d,
        (∃ s, p.1 = some s) ∧ valIsStr p.2 = true := by
  induction ps with
  | nil => intro d h; exact h
  | cons q ps ih =>
    intro d h
    rw [List.foldl_cons]
    apply ih
    intro p hp
    rcases mem_dictInsert _ _ _ _ hp with hp | hp
    · exact h p hp
    · rw [hp]; exact ⟨⟨q.1, rfl⟩, rfl⟩

theorem mkRecord_pairs_good (header fields : List String)
    (hlen : fields.length = header.length) :
    ∀ p ∈ mkRecord header fields, (∃ s, p.1 = some s) ∧ valIsStr p.2 = true := by
  simp only [mkRecord]
  rw [if_neg (by omega), List.drop_eq_nil_of_le (by omega), List.foldl_nil]
  exact fold_zip_pairs_good _ [] (by intro p hp; cases hp)

theorem pyRecords_good (d : Char) (content : String)
    (hw : rowsWellFormed d content = true) :
    ∀ r ∈ pyRecords d content, ∀ p ∈ r,
      (∃ s, p.1 = some s) ∧ valIsStr p.2 = true := by
  unfold pyRecords
  unfold rowsWellFormed at hw
  cases hrows : csvRows d content with
  | nil => simp only [hrows]; intro r hr; cases hr
  | cons header rest =>
    simp only [hrows] at hw ⊢
    intro r hr
    obtain ⟨row, hrow, hmk⟩ := List.mem_map.mp hr
    obtain ⟨hrow2, hne⟩ := List.mem_filter.mp hrow
    have hlen : row.length = header.length := by
      have hor := List.all_eq_true.mp hw row hrow2
      rw [Bool.or_eq_true] at hor
      rcases hor with h | h
      · rw [h] at hne; exact Bool.noConfusion hne
      · exact beq_iff_eq.mp h
    rw [← hmk]
    exact mkRecord_pairs_good header row hlen

theorem observeRecord_ok (r : Record) :
    ∀ acc : AccF, (∀ p ∈ r, valIsStr p.2 = true) →
      observeRecord acc r = .ok (observeFrom acc r) := by
  induction r with
  | nil => intro acc h; rfl
  | cons p r ih =>
    intro acc h
    have hps : valIsStr p.2 = true := h p (List.mem_cons_self _ _)
    have hop : observePair acc p = .ok (addObs acc p.1 p.2) := by
      unfold observePair
      cases hv : p.2 with
      | extra l => rw [hv] at hps; exact Bool.noConfusion hps
      | str s => rfl
      | pynone => rfl
    unfold observeRecord
    rw [foldExc_cons]
    simp only [hop]
    rw [observeFrom_cons]
    exact ih (addObs acc p.1 p.2) (fun q hq => h q (List.mem_cons_of_mem _ hq))

theorem accGood_empty : AccGood emptyAcc := by
  constructor
  · intro k hk; simp [emptyAcc] at hk
  · intro k v hv; simp [emptyAcc] at hv

theorem accGood_observe (ps : List (RKey × RVal))
    (hps : ∀ p ∈ ps, (∃ s, p.1 = some s) ∧ valIsStr p.2 = true)
    (acc : AccF) (hacc : AccGood acc) : AccGood (observeFrom acc ps) := by
  obtain ⟨hk, hv⟩ := hacc
  constructor
  · intro k hkk
    rcases (mem_keys_observeFrom ps acc k).mp hkk with h | ⟨v, h⟩
    · exact hk k h
    · obtain ⟨⟨s, hs⟩, _⟩ := hps (k, v) h
      have hs2 : k = some s := hs
      rw [hs2]; simp
  · intro k v hvv
    rcases (mem_val_observeFrom ps acc k v).mp hvv with h | h
    · exact hv k v h
    · exact (hps (k, v) h).2

theorem mapExc_ok (f : α → Except PyExc β) :
    ∀ l : List α, (∀ a ∈ l, ∃ b, f a = .ok b) → ∃ l2, mapExc f l = .ok l2 := by
  intro l
  induction l with
  | nil => intro _; exact ⟨[], rfl⟩
  | cons a l ih =>
    intro h
    obtain ⟨b, hb⟩ := h a (List.mem_cons_self _ _)
    obtain ⟨l2, hl2⟩ := ih (fun x hx => h x (List.mem_cons_of_mem _ hx))
    exact ⟨b :: l2, by unfold mapExc; simp only [hb, hl2]⟩

theorem mapExc_ok_mem (f : α → Except PyExc β) :
    ∀ (l : List α) (l2 : List β), mapExc f l = .ok l2 →
      ∀ b ∈ l2, ∃ a ∈ l, f a = .ok b := by
  intro l
  induction l with
  | nil =>
    intro l2 h b hb
    rw [← Except.ok.inj h] at hb
    cases hb
  | cons a l ih =>
    intro l2 h b hb
    unfold mapExc at h
    cases hfa : f a with
    | error e => simp only [hfa] at h; exact Except.noConfusion h
    | ok c =>
      simp only [hfa] at h
      cases hml : mapExc f l with
      | error e => simp only [hml] at h; exact Except.noConfusion h
      | ok cs =>
        simp only [hml] at h
        rw [← Except.ok.inj h] at hb
        rcases List.mem_cons.mp hb with rfl | hb
        · exact ⟨a, List.mem_cons_self _ _, hfa⟩
        · obtain ⟨x, hx, hfx⟩ := ih cs hml b hb
          exact ⟨x, List.mem_cons_of_mem _ hx, hfx⟩

theorem classifyPhase_ok (acc : AccF)
    (hkeys : ∀ k ∈ acc.keys, k ≠ (none : RKey))
    (hvals : ∀ (k : RKey) (v : RVal), v ∈ acc.val k → valIsStr v = true) :
    ∃ lines, classifyPhase acc = .ok lines := by
  have hc : acc.keys.contains none = false := by
    cases hcc : acc.keys.contains (none : RKey)
    · rfl
    · exact absurd rfl (hkeys none ((contains_iff_mem_key _ _).mp hcc))
  unfold classifyPhase
  simp only [hc, Bool.false_eq_true, if_false]
  apply mapExc_ok
  intro n _
  refine ⟨showSet n ((acc.val (some n)).map valStr), ?_⟩
  unfold showSetPy
  rw [if_pos (List.all_eq_true.mpr (fun v hv => hvals (some n) v hv))]

theorem lookup_dictInsert_isSome (d : Record) (k q : RKey) (v : RVal)
    (h : (lookupRec d q).isSome = true) :
    (lookupRec (dictInsert d k v) q).isSome = true := by
  by_cases hqk : q = k
  · subst hqk; rw [lookup_dictInsert_self]; rfl
  · rw [lookup_dictInsert_other d k q v hqk]; exact h

theorem foldInsert_preserve (ps : List (String × String)) :
    ∀ (d : Record) (q : RKey), (lookupRec d q).isSome = true →
      (lookupRec (ps.foldl (fun d2 p => dictInsert d2 (some p.1) (RVal.str p.2)) d)
        q).isSome = true := by
  induction ps with
  | nil => intro d q h; exact h
  | cons p ps ih =>
    intro d q h
    rw [List.foldl_cons]
    exact ih _ q (lookup_dictInsert_isSome _ _ _ _ h)

theorem foldInsert_lookup (ps : List (String × String)) :
    ∀ (d : Record) (k : String), k ∈ ps.map Prod.fst →
      (lookupRec (ps.foldl (fun d2 p => dictInsert d2 (some p.1) (RVal.str p.2)) d)
        (some k)).isSome = true := by
  induction ps with
  | nil => intro d k hk; cases hk
  | cons p ps ih =>
    intro d k hk
    rw [List.foldl_cons]
    rw [List.map_cons] at hk
    rcases List.mem_cons.mp hk with rfl | hk
    · apply foldInsert_preserve
      rw [lookup_dictInsert_self]
      rfl
    · exact ih _ k hk

theorem mkRecord_lookup_isSome (header fields : List String)
    (hlen : fields.length = header.length) (k : String) (hk : k ∈ header) :
    (lookupRec (mkRecord header fields) (some k)).isSome = true := by
  simp only [mkRecord]
  rw [if_neg (by omega), List.drop_eq_nil_of_le (by omega), List.foldl_nil]
  apply foldInsert_lookup
  rw [List.map_fst_zip header fields (by omega)]
  exact hk

theorem pyRecords_lookup (d : Char) (content : String) (cols : List String)
    (hw : rowsWellFormed d content = true)
    (hcp : colsPresent cols d content = true) :
    ∀ r ∈ pyRecords d content, ∀ c ∈ cols, (lookupRec r (some c)).isSome = true := by
  unfold pyRecords
  unfold rowsWellFormed at hw
  unfold colsPresent at hcp
  cases hrows : csvRows d content with
  | nil => simp only [hrows]; intro r hr; cases hr
  | cons header rest =>
    simp only [hrows] at hw hcp ⊢
    intro r hr c hc
    obtain ⟨row, hrow, hmk⟩ := List.mem_map.mp hr
    obtain ⟨hrow2, hne⟩ := List.mem_filter.mp hrow
    have hlen : row.length = header.length := by
      have hor := List.all_eq_true.mp hw row hrow2
      rw [Bool.or_eq_true] at hor
      rcases hor with h | h
      · rw [h] at hne; exact Bool.noConfusion hne
      · exact beq_iff_eq.mp h
    rw [← hmk]
    exact mkRecord_lookup_isSome header row hlen c
      ((contains_iff_mem_str header c).mp (List.all_eq_true.mp hcp c hc))

theorem projRow_ok (cols : List String) (r : Record)
    (hvals : ∀ p ∈ r, valIsStr p.2 = true)
    (hpresent : ∀ c ∈ cols, (lookupRec r (some c)).isSome = true) :
    ∃ line, projRow cols r = .ok line := by
  have hside : ∀ c ∈ cols, ∃ b,
      (match lookupRec r (some c) with
        | none => Except.error PyExc.keyError
        | some v => Except.ok v) = Except.ok b := by
    intro c hc
    cases hl : lookupRec r (some c) with
    | none =>
      have hp := hpresent c hc
      rw [hl] at hp
      exact Bool.noConfusion hp
    | some v => exact ⟨v, by simp only [hl]⟩
  obtain ⟨vs, hvs⟩ := mapExc_ok
    (fun k => match lookupRec r (some k) with
      | none => Except.error PyExc.keyError
      | some v => Except.ok v) cols hside
  have hall : vs.all valIsStr = true := by
    rw [List.all_eq_true]
    intro v hv
    obtain ⟨c, _, hfc⟩ := mapExc_ok_mem _ cols vs hvs v hv
    cases hl : lookupRec r (some c) with
    | none => simp only [hl] at hfc; exact Except.noConfusion hfc
    | some w =>
      simp only [hl] at hfc
      rw [← Except.ok.inj hfc]
      exact hvals (some c, w) (lookup_mem_rec r (some c) w hl)
  refine ⟨tabJoin (vs.map valStr), ?_⟩
  unfold projRow
  simp only [hvs]
  rw [if_pos hall]

theorem foldRecords_ok (recs : List Record) :
    ∀ acc : AccF,
      (∀ r ∈ recs, ∀ p ∈ r, (∃ s, p.1 = some s) ∧ valIsStr p.2 = true) →
      AccGood acc →
      ∃ acc2, foldExc observeRecord acc recs = .ok acc2 ∧ AccGood acc2 := by
  induction recs with
  | nil => intro acc _ h; exact ⟨acc, rfl, h⟩
  | cons r recs ih =>
    intro acc hrecs h
    obtain ⟨acc2, hfold, hgood⟩ := ih (observeFrom acc r)
      (fun r2 hr2 => hrecs r2 (List.mem_cons_of_mem _ hr2))
      (accGood_observe r (hrecs r (List.mem_cons_self _ _)) acc h)
    refine ⟨acc2, ?_, hgood⟩
    rw [foldExc_cons,
      observeRecord_ok r acc (fun p hp => (hrecs r (List.mem_cons_self _ _) p hp).2)]
    exact hfold

theorem processFile_good (args : Args) (fs : String → FileRes) (st : RunSt)
    (f : String) (hg : fileGood args fs f = true) (hacc : AccGood st.acc) :
    ∃ st2, processFile args fs st f = .ok st2 ∧ AccGood st2.acc := by
  unfold fileGood at hg
  unfold processFile
  cases hfs : fs f with
  | err msg =>
    simp only [hfs]
    exact ⟨_, rfl, hacc⟩
  | ok content =>
    simp only [hfs] at hg
    cases hr : resolveDelim args content with
    | error e => simp only [hr] at hg; exact Bool.noConfusion hg
    | ok d =>
      simp only [hr] at hg
      rw [Bool.and_eq_true] at hg
      obtain ⟨hw, hrest⟩ := hg
      simp only [hr]
      rw [Bool.or_eq_true] at hrest
      cases hcols : args.columns.isEmpty
      · rw [if_neg (by simp [hcols])]
        have hcp : colsPresent args.columns d content = true := by
          rcases hrest with h | h
          · rw [hcols] at h; exact Bool.noConfusion h
          · exact h
        obtain ⟨lines, hlines⟩ := mapExc_ok (projRow args.columns)
          (pyRecords d content)
          (fun r hr2 => projRow_ok args.columns r
            (fun p hp => (pyRecords_good d content hw r hr2 p hp).2)
            (pyRecords_lookup d content args.columns hw hcp r hr2))
        simp only [hlines]
        exact ⟨_, rfl, hacc⟩
      · rw [if_pos rfl]
        obtain ⟨acc2, hfold, hgood⟩ := foldRecords_ok (pyRecords d content) st.acc
          (pyRecords_good d content hw) hacc
        simp only [hfold]
        exact ⟨_, rfl, hgood⟩

theorem foldFiles_good (args : Args) (fs : String → FileRes) :
    ∀ files : List String, (∀ f ∈ files, fileGood args fs f = true) →
      ∀ st : RunSt, AccGood st.acc →
        ∃ st2, foldExc (processFile args fs) st files = .ok st2 ∧ AccGood st2.acc := by
  intro files
  induction files with
  | nil => intro _ st h; exact ⟨st, rfl, h⟩
  | cons f l ih =>
    intro hg st h
    obtain ⟨s2, hs2, hg2⟩ :=
      processFile_good args fs st f (hg f (List.mem_cons_self _ _)) h
    obtain ⟨st2, hst2, hgood2⟩ :=
      ih (fun x hx => hg x (List.mem_cons_of_mem _ hx)) s2 hg2
    refine ⟨st2, ?_, hgood2⟩
    rw [foldExc_cons]
    simp only [hs2]
    exact hst2

/-- C9 (amended): only per-file open IOErrors and top-level interruption are
handled — a sniffing failure or a projection request for an absent column
escapes as an unhandled exception (see the counterexample).  Conversely, a
run in which every file either fails to open or yields a detectable dialect,
rows of exactly the header's width and (in projection mode) all requested
columns, raises nothing: main returns normally. -/
theorem c9_good_path (args : Args) (fs : String → FileRes)
    (hgood : ∀ f ∈ filesOf args, fileGood args fs f = true) :
    ∃ out errs rtn, mainRun args fs = .ok (out, errs, rtn) := by
  unfold mainRun
  cases hld : args.listDialects
  · simp only [Bool.false_eq_true, if_false]
    obtain ⟨st2, hst2, hk, hv⟩ :=
      foldFiles_good args fs (filesOf args) hgood initSt accGood_empty
    simp only [hst2]
    obtain ⟨lines, hlines⟩ := classifyPhase_ok st2.acc hk hv
    simp only [hlines]
    exact ⟨_, _, _, rfl⟩
  · simp only [if_true]
    exact ⟨DIALECT_NAMES, [], 1, rfl⟩

/-- Fixture for claim C9: projection of a column absent from the header. -/
def fsC9 : String → FileRes := fun _ => FileRes.ok "h,k\n1,2\n"

/-- Argument fixture for claim C9: request the non-existent column z. -/
def argsC9 : Args := ⟨none, false, ["z"], ["a.csv"]⟩

/-- C9 counterexample: requesting a column absent from the header raises a
KeyError that nothing catches — the run ends in an unhandled stack dump,
not a non-zero exit code. -/
theorem c9_good_path_cx :
    mainRun argsC9 fsC9 = .error PyExc.keyError ∧
    topLevel (mainRun argsC9 fsC9) = .unhandled PyExc.keyError :=
  ⟨rfl, rfl⟩

/-- Second fixture for claim C9: one well-formed file, one open failure. -/
def fsC9b : String → FileRes := fun f =>
  if f = "a.csv" then FileRes.ok "h,k\n1,2\n"
  else FileRes.err "No such file or directory"

/-- Second argument fixture for claim C9. -/
def argsC9b : Args := ⟨none, false, [], ["a.csv", "missing.csv"]⟩

/-- C9 amended witness: a run of safe files completes without exception. -/
theorem c9_good_path_w :
    (∀ f ∈ filesOf argsC9b, fileGood argsC9b fsC9b f = true) ∧
    ∃ out errs rtn, mainRun argsC9b fsC9b = .ok (out, errs, rtn) :=
  ⟨by decide, c9_good_path argsC9b fsC9b (by decide)⟩

end CsvAnalyze
